import Mathlib

/-!
Verification development for the storage-node piece store and the satellite
repair job queue of this repository, together with the supporting task-queue
record codec and the k-of-N collector.

Each subsystem is embedded shallowly: pure Go functions become Lean functions
and the concurrent collector becomes a labelled transition system.  Machine
integers are modelled as `Nat`/`Int` with explicit wrapping where the Go code
truncates.  Components of the repository whose implementation files are not
part of the source snapshot (the hashstore space accounting, the piece
validity check and the job queue proper, for which only tests, configuration
and callers are present) are modelled from the specification; every such
definition carries a doc comment starting with `Modelled from the spec:`.

The file is organised in two parts: all definitions first, then all lemmas
and the claim theorems.
-/

namespace StorjSpec

/-! ## Part 1: definitions -/

/-! ### Hashstore space accounting

The hashstore `DB` pairs two `Store`s (s0 and s1).  The implementation is not
part of the source snapshot (only `storagenode/piecestore/backend_test.go` and
the monitor test exercise it), so the stats aggregation is modelled from the
spec (§4.4 "Space accounting").  `RewriteMultiple` is a float in Go; it is
modelled as a rational number. -/

namespace Hashstore

/-- Modelled from the spec: per-store table statistics.  `tableSize` is the
size in bytes of the store's hash table file (`TableStats.TableSize`). -/
structure TableStats where
  tableSize : ℚ
deriving DecidableEq

/-- Modelled from the spec: the compaction configuration carrying
`RewriteMultiple` (`compaction.rewrite_multiple`). -/
structure CompactionConfig where
  rewriteMultiple : ℚ
deriving DecidableEq

/-- Modelled from the spec: a store's state, as far as space accounting is
concerned: its compaction config and its current hash table stats. -/
structure Store where
  config : CompactionConfig
  table : TableStats
deriving DecidableEq

/-- Modelled from the spec: `FreeRequired` per Store is
`(2 + RewriteMultiple) × TableSize`, reserving space to rewrite the table and
one extra copy plus headroom. -/
def Store.freeRequired (s : Store) : ℚ :=
  (2 + s.config.rewriteMultiple) * s.table.tableSize

/-- Modelled from the spec: a DB pairs two stores behind one namespace. -/
structure DB where
  s0 : Store
  s1 : Store
deriving DecidableEq

/-- Modelled from the spec: DB-level stats aggregate the two stores:
`FreeRequired` is the maximum of the stores' values (only one store compacts
at a time) and `TableSize` is the sum. -/
structure DBStats where
  freeRequired : ℚ
  tableSize : ℚ
deriving DecidableEq

/-- Modelled from the spec: the `Stats` aggregation of a DB over its stores. -/
def DB.stats (db : DB) : DBStats :=
  { freeRequired := max db.s0.freeRequired db.s1.freeRequired
    tableSize := db.s0.table.tableSize + db.s1.table.tableSize }

/-- Modelled from the spec: the space usage triple advertised by the piece
backend for one namespace. -/
structure SpaceUsage where
  usedTotal : ℚ
  usedForMetadata : ℚ
  reserved : ℚ
deriving DecidableEq

/-- Modelled from the spec: the per-namespace space usage derived from the
DB's aggregated stats: `Reserved` is the DB's `FreeRequired` and
`UsedForMetadata` its `TableSize`. -/
def DB.spaceUsage (db : DB) (usedTotal : ℚ) : SpaceUsage :=
  { usedTotal := usedTotal
    usedForMetadata := db.stats.tableSize
    reserved := db.stats.freeRequired }

end Hashstore

/-! ### Task-queue record codec

Embedding of `marshalStruct` / `unmarshalStruct` and their helpers
`fieldToString` / `stringToField` from `satellite/taskqueue/client.go`.
A Go struct is modelled as a list of `Field`s, where `Field.name` is the
mapped Redis key computed by `getFieldInfos` (the lowercased Go field name,
or the `redis` tag; fields tagged `-` and unexported fields are absent from
the list).  The numeric and hex codecs mirror `strconv.FormatInt/ParseInt`,
`strconv.FormatUint/ParseUint`, `strconv.FormatBool/ParseBool` and
`encoding/hex`; `float32`/`float64` and their `strconv` codec are kept
abstract as type parameters because binary floating point is outside the
embedding. -/

namespace Taskqueue

/-- The decimal digit character for `d < 10` (ASCII `'0' + d`). -/
def digitChar (d : Nat) : Char := Char.ofNat (48 + d)

/-- Fuel-driven decimal rendering of a natural number, most significant digit
first; mirrors `strconv.FormatUint(·, 10)`.  The fuel only serves structural
recursion and is always called with `fuel > n`. -/
def natToCharsAux : Nat → Nat → List Char
  | 0, _ => []
  | fuel + 1, n =>
    if n < 10 then [digitChar n]
    else natToCharsAux fuel (n / 10) ++ [digitChar (n % 10)]

/-- Decimal rendering of a natural number (`strconv.FormatUint(·, 10)`). -/
def natToChars (n : Nat) : List Char := natToCharsAux (n + 1) n

/-- The numeric value of a decimal digit character, if it is one. -/
def digitVal? (c : Char) : Option Nat :=
  if 48 ≤ c.toNat ∧ c.toNat ≤ 57 then some (c.toNat - 48) else none

/-- Accumulating decimal parser over a digit list. -/
def parseDigitsAux (acc : Nat) : List Char → Option Nat
  | [] => some acc
  | c :: cs =>
    match digitVal? c with
    | some d => parseDigitsAux (acc * 10 + d) cs
    | none => none

/-- Parse a nonempty string of decimal digits. -/
def parseNatDigits : List Char → Option Nat
  | [] => none
  | c :: cs => parseDigitsAux 0 (c :: cs)

/-- `strconv.ParseUint(s, 10, 64)`: digits only (no sign), value below
`2^64`. -/
def parseUintStr (s : List Char) : Option Nat :=
  match parseNatDigits s with
  | some n => if n < 2 ^ 64 then some n else none
  | none => none

/-- `strconv.FormatInt(v, 10)`: optional minus sign followed by the decimal
magnitude. -/
def intToChars (v : Int) : List Char :=
  if v < 0 then '-' :: natToChars v.natAbs else natToChars v.toNat

/-- `strconv.ParseInt(s, 10, 64)`: an optional sign followed by digits, with
the signed 64-bit range check. -/
def parseIntStr : List Char → Option Int
  | [] => none
  | c :: cs =>
    if c = '-' then
      match parseNatDigits cs with
      | some n => if n ≤ 2 ^ 63 then some (-(n : Int)) else none
      | none => none
    else if c = '+' then
      match parseNatDigits cs with
      | some n => if n < 2 ^ 63 then some (n : Int) else none
      | none => none
    else
      match parseNatDigits (c :: cs) with
      | some n => if n < 2 ^ 63 then some (n : Int) else none
      | none => none

/-- The lowercase hex digit character for `d < 16` (as produced by
`hex.EncodeToString`). -/
def hexDigitChar (d : Nat) : Char :=
  if d < 10 then Char.ofNat (48 + d) else Char.ofNat (87 + d)

/-- `hex.EncodeToString`: two lowercase hex characters per byte. -/
def hexEncode : List Nat → List Char
  | [] => []
  | b :: bs => hexDigitChar (b / 16) :: hexDigitChar (b % 16) :: hexEncode bs

/-- The value of a hex digit character (`encoding/hex.fromHexChar` accepts
both cases). -/
def hexVal? (c : Char) : Option Nat :=
  if 48 ≤ c.toNat ∧ c.toNat ≤ 57 then some (c.toNat - 48)
  else if 97 ≤ c.toNat ∧ c.toNat ≤ 102 then some (c.toNat - 87)
  else if 65 ≤ c.toNat ∧ c.toNat ≤ 70 then some (c.toNat - 55)
  else none

/-- `hex.DecodeString`: fails on odd length or a non-hex character. -/
def hexDecode : List Char → Option (List Nat)
  | [] => some []
  | [_] => none
  | c1 :: c2 :: cs =>
    match hexVal? c1, hexVal? c2 with
    | some hi, some lo => (hexDecode cs).map (fun r => (hi * 16 + lo) :: r)
    | _, _ => none

/-- `strconv.FormatBool`. -/
def formatBool (b : Bool) : String := if b then "true" else "false"

/-- `strconv.ParseBool`: accepts `1 t T TRUE true True` and
`0 f F FALSE false False`. -/
def parseBool (s : String) : Option Bool :=
  if s = "1" ∨ s = "t" ∨ s = "T" ∨ s = "TRUE" ∨ s = "true" ∨ s = "True" then
    some true
  else if s = "0" ∨ s = "f" ∨ s = "F" ∨ s = "FALSE" ∨ s = "false" ∨ s = "False" then
    some false
  else none

/-- Two's-complement truncation of an `int64` into a Go signed integer field
of bit width `width`, as performed by `reflect.Value.SetInt`. -/
def wrapInt (width : Nat) (v : Int) : Int :=
  (v + 2 ^ (width - 1)) % 2 ^ width - 2 ^ (width - 1)

/-- Truncation of a `uint64` into a Go unsigned integer field of bit width
`width`, as performed by `reflect.Value.SetUint`. -/
def wrapUint (width : Nat) (v : Nat) : Nat := v % 2 ^ width

/-- An abstract codec for a Go float type together with its `strconv`
formatting (`FormatFloat(·, 'f', -1, bits)`) and parsing (`ParseFloat`). -/
structure FloatCodec (F : Type) where
  format : F → List Char
  parse : List Char → Option F

/-- The value of one Go struct field, covering exactly the kinds supported by
`fieldToString` / `stringToField`: strings, fixed-width signed and unsigned
integers (width in bits; Go's plain `int`/`uint` are width 64), floats
(abstract), booleans, byte slices and byte arrays.  Bytes are naturals below
256. -/
inductive FieldVal (F32 F64 : Type) where
  | str (s : List Char)
  | int (width : Nat) (v : Int)
  | uint (width : Nat) (v : Nat)
  | float32 (x : F32)
  | float64 (x : F64)
  | bool (b : Bool)
  | bytes (bs : List Nat)
  | byteArray (size : Nat) (bs : List Nat)
deriving DecidableEq

/-- One exported, non-skipped struct field after `getFieldInfos`: its mapped
Redis key and its current value. -/
structure Field (F32 F64 : Type) where
  name : String
  val : FieldVal F32 F64
deriving DecidableEq

/-- `fieldToString`: encode one field value as the string stored in Redis. -/
def fieldToString {F32 F64 : Type} (c32 : FloatCodec F32) (c64 : FloatCodec F64) :
    FieldVal F32 F64 → String
  | .str s => String.mk s
  | .int _ v => String.mk (intToChars v)
  | .uint _ v => String.mk (natToChars v)
  | .float32 x => String.mk (c32.format x)
  | .float64 x => String.mk (c64.format x)
  | .bool b => formatBool b
  | .bytes bs => String.mk (hexEncode bs)
  | .byteArray _ bs => String.mk (hexEncode bs)

/-- `stringToField`: decode a Redis string into a field, dispatching on the
destination field's kind; `none` is the error return.  Integer kinds parse at
64 bits and then truncate to the destination width, byte arrays check the
length. -/
def stringToField {F32 F64 : Type} (c32 : FloatCodec F32) (c64 : FloatCodec F64)
    (cur : FieldVal F32 F64) (s : String) : Option (FieldVal F32 F64) :=
  match cur with
  | .str _ => some (.str s.data)
  | .int w _ => (parseIntStr s.data).map (fun n => .int w (wrapInt w n))
  | .uint w _ => (parseUintStr s.data).map (fun n => .uint w (wrapUint w n))
  | .float32 _ => (c32.parse s.data).map .float32
  | .float64 _ => (c64.parse s.data).map .float64
  | .bool _ => (parseBool s).map .bool
  | .bytes _ => (hexDecode s.data).map .bytes
  | .byteArray n _ =>
    match hexDecode s.data with
    | some bs => if bs.length = n then some (.byteArray n bs) else none
    | none => none

/-- `marshalStruct`: fold the fields into a Go map (`map[string]any` holding
strings), later fields overwriting earlier ones with the same key, exactly as
`fields[info.name] = s` does in the loop. -/
def marshalStruct {F32 F64 : Type} (c32 : FloatCodec F32) (c64 : FloatCodec F64)
    (fs : List (Field F32 F64)) : String → Option String :=
  fs.foldl
    (fun m f => fun k => if k = f.name then some (fieldToString c32 c64 f.val) else m k)
    (fun _ => none)

/-- A value of a Redis stream entry: a string, or some non-string value (the
`raw.(string)` type assertion in `unmarshalStruct` rejects the latter). -/
inductive RedisVal where
  | str (s : String)
  | nonstring
deriving DecidableEq

/-- `unmarshalStruct`: walk the destination fields in order; a field whose
key is absent is skipped, a present string value is decoded into the field,
and a decode failure or non-string value stops the walk with an error (the
boolean result), leaving the remaining fields untouched — mirroring the
in-place mutation of the Go destination struct up to the error point. -/
def unmarshalStruct {F32 F64 : Type} (c32 : FloatCodec F32) (c64 : FloatCodec F64)
    (values : String → Option RedisVal) :
    List (Field F32 F64) → List (Field F32 F64) × Bool
  | [] => ([], false)
  | f :: fs =>
    match values f.name with
    | none =>
      let r := unmarshalStruct c32 c64 values fs
      (f :: r.1, r.2)
    | some .nonstring => (f :: fs, true)
    | some (.str s) =>
      match stringToField c32 c64 f.val s with
      | none => (f :: fs, true)
      | some v =>
        let r := unmarshalStruct c32 c64 values fs
        ({ name := f.name, val := v } :: r.1, r.2)

/-- Executable well-formedness of a field value with respect to Go's type
system: integer values fit the declared width (one of 8, 16, 32, 64), bytes
are below 256, a byte array has its declared length. -/
def wfField {F32 F64 : Type} : FieldVal F32 F64 → Bool
  | .int w v =>
    (w = 8 || w = 16 || w = 32 || w = 64) &&
      decide (-(2 ^ (w - 1) : Int) ≤ v) && decide (v < 2 ^ (w - 1))
  | .uint w v => (w = 8 || w = 16 || w = 32 || w = 64) && decide (v < 2 ^ w)
  | .bytes bs => bs.all (fun b => b < 256)
  | .byteArray n bs => bs.length = n && bs.all (fun b => b < 256)
  | _ => true

/-- A trivial float codec on `Unit`, used to instantiate the abstract float
parameters on concrete examples. -/
def unitCodec : FloatCodec Unit :=
  { format := fun _ => []
    parse := fun _ => some () }

/-- A sample record covering every supported field kind, with pairwise
distinct mapped keys (compare `testJob` in `client_test.go`). -/
def sampleFields : List (Field Unit Unit) :=
  [ { name := "nodeid", val := .str ['n', 'o', 'd', 'e'] }
  , { name := "retry", val := .int 64 3 }
  , { name := "small", val := .int 8 (-5) }
  , { name := "count", val := .uint 32 7 }
  , { name := "active", val := .bool true }
  , { name := "score", val := .float64 () }
  , { name := "ratio", val := .float32 () }
  , { name := "data", val := .bytes [222, 173, 190, 239] }
  , { name := "arr", val := .byteArray 2 [1, 254] } ]

/-- A record with two fields whose mapped keys collide (possible in Go via
two field names with the same lowercasing, or a `redis` tag equal to another
field's key). -/
def dupFields : List (Field Unit Unit) :=
  [ { name := "x", val := .str ['a'] }
  , { name := "x", val := .str ['b'] } ]

end Taskqueue

/-! ### Repair job queue (per placement)

The jobqueue implementation (`satellite/jobq/jobqueue`) is not part of the
source snapshot: only its configuration (`jobqueue/config.go`), module wiring
and the `jobqtest` helper are present.  The queue is therefore modelled from
the spec (§4.8): a primary repair heap keyed by `segment_health` ascending
with `inserted_at` ascending as tie-break, a secondary retry heap for jobs
whose last attempt is more recent than `retry_after`, one shared element
budget, and eviction of the lowest-priority element on overflow.
`segment_health` is a float in Go; it is modelled as an integer-valued
totally ordered quantity, and times as integers. -/

namespace Jobqueue

/-- Modelled from the spec: a repair job.  `health` is `segment_health`. -/
structure Job where
  streamId : Nat
  position : Nat
  health : Int
  insertedAt : Int
  updatedAt : Int
  lastAttemptedAt : Option Int
deriving DecidableEq

/-- The priority key of a job: `(segment_health, inserted_at)`, compared
lexicographically; smaller means higher repair priority. -/
def jobKey (j : Job) : Int × Int := (j.health, j.insertedAt)

/-- Strict lexicographic comparison of priority keys. -/
def keyLtB (a b : Int × Int) : Bool :=
  a.1 < b.1 || (a.1 = b.1 && a.2 < b.2)

/-- Modelled from the spec: the per-placement queue: repair heap, retry heap,
element budget `max_elements` and `retry_after`. -/
structure Queue where
  repairH : List Job
  retryH : List Job
  maxElems : Nat
  retryAfter : Int
deriving DecidableEq

/-- All jobs currently held by the queue (repair heap then retry heap). -/
def Queue.jobs (q : Queue) : List Job := q.repairH ++ q.retryH

/-- `len(repair heap) + len(retry heap)`. -/
def Queue.totalLen (q : Queue) : Nat := q.repairH.length + q.retryH.length

/-- Modelled from the spec: a pushed job enters the retry heap iff
`last_attempted_at` is set and `now − last_attempted_at < retry_after`. -/
def goesToRetry (q : Queue) (j : Job) (now : Int) : Bool :=
  match j.lastAttemptedAt with
  | some la => now - la < q.retryAfter
  | none => false

/-- Insert a job into its target heap. -/
def insertJob (q : Queue) (j : Job) (now : Int) : Queue :=
  if goesToRetry q j now then { q with retryH := q.retryH ++ [j] }
  else { q with repairH := q.repairH ++ [j] }

/-- One selection step towards the lowest-priority element. -/
def worstStep (acc : Option Job) (x : Job) : Option Job :=
  match acc with
  | none => some x
  | some w => if keyLtB (jobKey w) (jobKey x) then some x else some w

/-- The lowest-priority element of a list: the lexicographically largest
`(segment_health, inserted_at)` key; on equal keys the earlier element is
kept, so among jobs of equal health the one with the larger (newer)
`inserted_at` is selected for eviction. -/
def worstOf? (l : List Job) : Option Job :=
  l.foldl worstStep none

/-- Remove one occurrence of a job from whichever heap holds it. -/
def eraseJob (q : Queue) (w : Job) : Queue :=
  if w ∈ q.repairH then { q with repairH := q.repairH.erase w }
  else { q with retryH := q.retryH.erase w }

/-- Modelled from the spec: `Push(job)`: route to the retry or repair heap;
if capacity is exhausted, evict the lowest-priority element — which may be
the pushed job itself, in which case Push is a no-op. -/
def push (q : Queue) (j : Job) (now : Int) : Queue :=
  if q.totalLen < q.maxElems then insertJob q j now
  else
    match worstOf? q.jobs with
    | none => q
    | some w =>
      if keyLtB (jobKey j) (jobKey w) then insertJob (eraseJob q w) j now else q

/-- Modelled from the spec: `PushBatch` is repeated `Push` under one lock. -/
def pushBatch (q : Queue) (js : List Job) (now : Int) : Queue :=
  js.foldl (fun q j => push q j now) q

/-- A retry-heap entry is eligible for promotion once
`last_attempted_at + retry_after ≤ now`. -/
def eligible (q : Queue) (j : Job) (now : Int) : Bool :=
  match j.lastAttemptedAt with
  | some la => la + q.retryAfter ≤ now
  | none => true

/-- Modelled from the spec: before a Pop, promote all retry-heap entries
whose eligibility time has passed into the repair heap. -/
def promote (q : Queue) (now : Int) : Queue :=
  { q with
    repairH := q.repairH ++ q.retryH.filter (fun j => eligible q j now)
    retryH := q.retryH.filter (fun j => !(eligible q j now)) }

/-- One selection step towards the highest-priority element. -/
def bestStep (acc : Option Job) (x : Job) : Option Job :=
  match acc with
  | none => some x
  | some b => if keyLtB (jobKey x) (jobKey b) then some x else some b

/-- The highest-priority element of a list: the lexicographically smallest
`(segment_health, inserted_at)` key. -/
def bestOf? (l : List Job) : Option Job :=
  l.foldl bestStep none

/-- Modelled from the spec: `Pop()`: promote eligible retry entries, then pop
the minimum of the repair heap; `none` when nothing is available.  The claims
below concern the job as stored, so the attempt-metadata update on the
returned copy is not modelled. -/
def popQ (q : Queue) (now : Int) : Option Job × Queue :=
  let q' := promote q now
  match bestOf? q'.repairH with
  | none => (none, q')
  | some b => (some b, { q' with repairH := q'.repairH.erase b })

/-- Repeatedly pop until the queue yields nothing, at a fixed time; the fuel
only serves structural recursion. -/
def popAllAux : Nat → Queue → Int → List Job
  | 0, _, _ => []
  | fuel + 1, q, now =>
    match popQ q now with
    | (none, _) => []
    | (some j, q') => j :: popAllAux fuel q' now

/-- The sequence of jobs returned by successive `Pop`s at time `now`. -/
def popAll (q : Queue) (now : Int) : List Job := popAllAux q.totalLen q now

/-- Modelled from the spec: `Clean(before)` drops all entries from both heaps
whose `updated_at < before`. -/
def clean (q : Queue) (before : Int) : Queue :=
  { q with
    repairH := q.repairH.filter (fun j => !(j.updatedAt < before))
    retryH := q.retryH.filter (fun j => !(j.updatedAt < before)) }

/-- Modelled from the spec: `Trim(healthGreaterThan)` drops all entries whose
`segment_health > threshold`. -/
def trim (q : Queue) (healthGreaterThan : Int) : Queue :=
  { q with
    repairH := q.repairH.filter (fun j => !(healthGreaterThan < j.health))
    retryH := q.retryH.filter (fun j => !(healthGreaterThan < j.health)) }

/-- A queue operation together with the wall-clock instant at which the
queue's `now` function observes it. -/
inductive QOp where
  | push (j : Job)
  | pushBatch (js : List Job)
  | pop
  | clean (before : Int)
  | trim (healthGreaterThan : Int)
deriving DecidableEq

/-- An operation stamped with its time. -/
structure TimedOp where
  op : QOp
  t : Int
deriving DecidableEq

/-- Apply one timed operation; the second component is the popped job, when
the operation is a Pop that returns one. -/
def applyOp (q : Queue) (o : TimedOp) : Queue × Option Job :=
  match o.op with
  | .push j => (push q j o.t, none)
  | .pushBatch js => (pushBatch q js o.t, none)
  | .pop => ((popQ q o.t).2, (popQ q o.t).1)
  | .clean b => (clean q b, none)
  | .trim h => (trim q h, none)

/-- Run a sequence of timed operations. -/
def runOps (q : Queue) : List TimedOp → Queue
  | [] => q
  | o :: os => runOps (applyOp q o).1 os

/-- The result of the `i`-th operation of a run (the popped job, if any). -/
def opResult (q : Queue) (ops : List TimedOp) (i : Nat) : Option Job :=
  match ops.get? i with
  | some o => (applyOp (runOps q (ops.take i)) o).2
  | none => none

/-- An empty queue with the given element budget and retry delay. -/
def emptyQ (maxElems : Nat) (retryAfter : Int) : Queue :=
  { repairH := [], retryH := [], maxElems := maxElems, retryAfter := retryAfter }

/-- Every job sitting in the repair heap either has no recorded attempt or
became eligible no later than `T`: the key safety invariant behind the retry
delay. -/
def EligAt (q : Queue) (T : Int) : Prop :=
  ∀ j ∈ q.repairH, ∀ la, j.lastAttemptedAt = some la → la + q.retryAfter ≤ T

/-- The relation between the multiset of jobs pushed so far and the queue
state: the queue holds a subset of the pushed jobs, as many as fit the
element budget, and every held job has strictly higher priority (smaller
`(segment_health, inserted_at)` key) than every pushed-but-not-held job. -/
def PushedInv (P : List Job) (q : Queue) : Prop :=
  (∀ x ∈ q.jobs, x ∈ P) ∧
  (q.jobs.map jobKey).Nodup ∧
  q.jobs.length = min P.length q.maxElems ∧
  (∀ x ∈ q.jobs, ∀ y ∈ P, y ∉ q.jobs → keyLtB (jobKey x) (jobKey y) = true)

/-- A sample job with health 3. -/
def jobA : Job :=
  { streamId := 1, position := 1, health := 3, insertedAt := 0, updatedAt := 0
    lastAttemptedAt := none }

/-- A sample job with health 1. -/
def jobB : Job :=
  { streamId := 2, position := 2, health := 1, insertedAt := 0, updatedAt := 0
    lastAttemptedAt := none }

/-- A sample job with health 2. -/
def jobC : Job :=
  { streamId := 3, position := 3, health := 2, insertedAt := 0, updatedAt := 0
    lastAttemptedAt := none }

/-- A sample queue holding jobs with healths 3, 1, 2 in its repair heap. -/
def sampleQueue : Queue :=
  { repairH := [jobA, jobB, jobC], retryH := [], maxElems := 10, retryAfter := 5 }



/-- A sample job pushed right after a failed attempt at time 0. -/
def jobR : Job :=
  { streamId := 9, position := 9, health := 1, insertedAt := 0, updatedAt := 0
    lastAttemptedAt := some 0 }

/-- A sample operation trace: push `jobR` at time 0, pop at time 2 (too
early), pop at time 6 (eligible). -/
def opsR : List TimedOp :=
  [ { op := QOp.push jobR, t := 0 }
  , { op := QOp.pop, t := 2 }
  , { op := QOp.pop, t := 6 } ]

end Jobqueue


/-! ### Piece validity

`pieceValid` lives in `storagenode/piecestore/backend.go`, which is not part
of the source snapshot (only `backend_test.go` is).  It is modelled from the
spec (§4.6, §6): a piece is its data portion followed by a length-prefixed
serialized `PieceHeader`, located from the end of the payload; `pieceValid`
extracts the trailing header, recomputes the declared hash algorithm over
the data portion, compares it with the declared hash, and checks
`OrderLimit.PieceId` against the given piece id when present.  Bytes are
naturals; the hash function is an abstract parameter (BLAKE3 in the code);
the trailing length is modelled as a single unbounded element rather than
two big-endian bytes. -/

namespace Piecestore

/-- Modelled from the spec: the parts of the piece header that `pieceValid`
inspects — the declared hash algorithm (an enum value), the declared hash,
and the `OrderLimit`'s piece id when present. -/
structure PieceHeader where
  hashAlgorithm : Nat
  hash : List Nat
  pieceId : Option (List Nat)
deriving DecidableEq

/-- Modelled from the spec: a concrete "protobuf-like" serialization of the
header: algorithm, length-prefixed hash, then a presence flag and
length-prefixed piece id. -/
def serializeHeader (h : PieceHeader) : List Nat :=
  h.hashAlgorithm :: h.hash.length :: h.hash ++
    (match h.pieceId with
     | none => [0]
     | some pid => 1 :: pid.length :: pid)

/-- Modelled from the spec: parse a serialized header, validating lengths
and the presence flag. -/
def deserializeHeader (bs : List Nat) : Option PieceHeader :=
  match bs with
  | alg :: hlen :: rest =>
    if hlen ≤ rest.length then
      match rest.drop hlen with
      | [0] => some { hashAlgorithm := alg, hash := rest.take hlen, pieceId := none }
      | 1 :: plen :: rest2 =>
        if plen = rest2.length then
          some { hashAlgorithm := alg, hash := rest.take hlen, pieceId := some rest2 }
        else none
      | _ => none
    else none
  | _ => none

/-- Modelled from the spec: the stored payload of a piece — the user data
followed by the serialized header and its trailing length. -/
def encodePiece (h : PieceHeader) (data : List Nat) : List Nat :=
  data ++ serializeHeader h ++ [(serializeHeader h).length]

/-- Modelled from the spec: locate and parse the trailing header; returns
the header together with the data portion (the payload minus the trailing
header). -/
def extractPiece (b : List Nat) : Option (PieceHeader × List Nat) :=
  match b.getLast? with
  | none => none
  | some len =>
    if len ≤ b.dropLast.length then
      match deserializeHeader (b.dropLast.drop (b.dropLast.length - len)) with
      | some h => some (h, b.dropLast.take (b.dropLast.length - len))
      | none => none
    else none

/-- Whether the header's `OrderLimit.PieceId`, when present, equals the
given piece id. -/
def pieceIdOk (h : PieceHeader) (k : List Nat) : Bool :=
  match h.pieceId with
  | some pid => decide (pid = k)
  | none => true

/-- Modelled from the spec: `pieceValid(pieceID, bytes)` — extract the
trailing header, recompute the declared hash algorithm over the data
portion, compare with the declared hash, and check the piece id. -/
def pieceValid (hashFn : Nat → List Nat → List Nat) (k : List Nat)
    (b : List Nat) : Bool :=
  match extractPiece b with
  | some (h, data) =>
    decide (hashFn h.hashAlgorithm data = h.hash) && pieceIdOk h k
  | none => false

/-- Complementing a byte, as the test's `contents[i] ^= 0xFF` does. -/
def flipByte (x : Nat) : Nat := 255 - x

/-- Flip the byte at index `i` (no change when `i` is out of range). -/
def flipAt (i : Nat) (l : List Nat) : List Nat := l.set i (flipByte (l.getD i 0))

/-- A toy but non-trivial concrete hash used for concrete evaluations: the
byte sum modulo 251. -/
def sumHash (alg : Nat) (d : List Nat) : List Nat := [alg + d.foldl (· + ·) 0 % 251]

/-- Concrete data for the nested-piece counterexample. -/
def cexData : List Nat := [10, 20]

/-- A concrete valid piece for id `[5]` under `sumHash`. -/
def cexInner : List Nat :=
  encodePiece { hashAlgorithm := 1, hash := sumHash 1 cexData, pieceId := some [5] }
    cexData

/-- A concrete valid piece whose data portion is itself the valid piece
`cexInner`. -/
def cexOuter : List Nat :=
  encodePiece { hashAlgorithm := 1, hash := sumHash 1 cexInner, pieceId := some [5] }
    cexInner

/-- The identity "hash", used to instantiate the abstract hash on concrete
witnesses (it trivially has no colliding single-byte flip). -/
def idHash (_alg : Nat) (d : List Nat) : List Nat := d

/-- Concrete witness data. -/
def dataW : List Nat := [1, 2]

/-- A concrete header declaring the identity hash of `dataW` and piece id
`[5]`. -/
def headerW : PieceHeader :=
  { hashAlgorithm := 1, hash := [1, 2], pieceId := some [5] }

end Piecestore

/-! ### K-of-N collector

Transition-system embedding of `Collect` / `collectState.run`
(`src/unnamed/part_014`, package `kofn`).  `Collect` counts the non-skipped
items into `pending`, hands one goroutine per non-skipped item to a limiter
of capacity `min(Concurrency, pending)`, and waits for all of them.  A
goroutine runs `run`: under the mutex it loops over the done check, the
impossible check and the wait check, and otherwise claims work
(`pending--; active++`), performs `do` unlocked, records the result
(`active--` and `successCount++` or `failureCount++`) and returns.  Each
mutex-protected block is one labelled transition; the outcome of `do` is
chosen nondeterministically by the `finishOk` / `finishErr` labels, which
also covers cancelled operations.

The `LongTail` field of `Config` named by the claims and exercised by
`src/shared/sync/kofn/collect_test.go` is missing from the stale copy of
the package in `src/unnamed/part_014`.  Modelled from the spec: the
LongTail-capable collector runs up to `concurrency + long_tail` operations
concurrently, so its limiter capacity is `collectLimit` below; with
`longTail = 0` it coincides with the capacity used by `Collect`. -/

namespace Kofn

/-- One worker goroutine's control-flow position inside `run`: not yet
started by the limiter, inside the loop holding no claimed work (including
blocked in `cond.Wait`), executing `do` on claimed work, or returned
(`claimed` records whether it ran a `do` before returning). -/
inductive WStatus where
  | idle
  | looping
  | doing
  | out (claimed : Bool)
deriving DecidableEq

/-- Collector configuration: `RequiredSuccesses`, `RequiredFailures`, and
the limiter capacity. -/
structure KCfg where
  reqS : Nat
  reqF : Nat
  limit : Nat
deriving DecidableEq

/-- The shared `collectState` counters together with the per-index worker
statuses. -/
structure KState where
  status : Nat → WStatus
  succ : Nat
  fail : Nat
  active : Nat
  pending : Nat

/-- Sum over the `n` items of a per-index weight of the worker status. -/
def countW (n : Nat) (status : Nat → WStatus) (G : Nat → WStatus → Nat) : Nat :=
  ∑ i in Finset.range n, G i (status i)

/-- Weight 1 for a goroutine the limiter counts as currently running. -/
def runningWeight : WStatus → Nat
  | .looping => 1
  | .doing => 1
  | _ => 0

/-- Weight 1 for a worker currently executing `do`. -/
def doingWeight : WStatus → Nat
  | .doing => 1
  | _ => 0

/-- Weight 1 for a worker whose item has not been claimed; such a worker
still contributes to `pending`. -/
def unclaimedWeight : WStatus → Nat
  | .idle => 1
  | .looping => 1
  | .doing => 0
  | .out claimed => if claimed then 0 else 1

/-- The state in which `Collect` launches the workers: everyone idle,
counters zero, `pending` the number of non-skipped items. -/
def initState (n : Nat) (skip : Nat → Bool) : KState :=
  { status := fun _ => .idle
    succ := 0
    fail := 0
    active := 0
    pending := ∑ i in Finset.range n, if skip i then 0 else 1 }

/-- Transition labels: the limiter starts worker `i`; worker `i` returns
through the done check or the impossible check; worker `i` claims its item;
worker `i`'s `do` returns without or with an error and the result is
recorded. -/
inductive KLabel where
  | start (i : Nat)
  | exitDone (i : Nat)
  | exitImp (i : Nat)
  | claim (i : Nat)
  | finishOk (i : Nat)
  | finishErr (i : Nat)
deriving DecidableEq

/-- The done check of `run`. -/
abbrev KDone (cfg : KCfg) (s : KState) : Prop :=
  cfg.reqS ≤ s.succ ∧ cfg.reqF ≤ s.fail

/-- The impossible check of `run`: the results so far plus every in-flight
and not-yet-claimed item cannot reach one of the two thresholds. -/
abbrev KImp (cfg : KCfg) (s : KState) : Prop :=
  s.succ + s.active + s.pending < cfg.reqS ∨
    s.fail + s.active + s.pending < cfg.reqF

/-- The wait check of `run`: the in-flight operations alone could satisfy
what is still required. -/
abbrev KWait (cfg : KCfg) (s : KState) : Prop :=
  cfg.reqS ≤ s.succ + s.active ∧ cfg.reqF ≤ s.fail + s.active

/-- One atomic transition of the collector.  `Collect` never hands a
skipped item to the limiter (its launch loop `continue`s over it), so
`start` requires `skip i = false`; the remaining constructors transcribe
the mutex-protected blocks of `run`. -/
inductive Step (n : Nat) (skip : Nat → Bool) (cfg : KCfg) :
    KState → KLabel → KState → Prop where
  | start (s : KState) (i : Nat) (hi : i < n) (hskip : skip i = false)
      (hst : s.status i = .idle)
      (hlim : countW n s.status (fun _ w => runningWeight w) < cfg.limit) :
      Step n skip cfg s (.start i)
        { s with status := Function.update s.status i .looping }
  | exitDone (s : KState) (i : Nat) (hi : i < n)
      (hst : s.status i = .looping) (hdone : KDone cfg s) :
      Step n skip cfg s (.exitDone i)
        { s with status := Function.update s.status i (.out false) }
  | exitImp (s : KState) (i : Nat) (hi : i < n)
      (hst : s.status i = .looping) (himp : KImp cfg s) :
      Step n skip cfg s (.exitImp i)
        { s with status := Function.update s.status i (.out false) }
  | claim (s : KState) (i : Nat) (hi : i < n)
      (hst : s.status i = .looping)
      (hnd : ¬ KDone cfg s) (hni : ¬ KImp cfg s) (hnw : ¬ KWait cfg s) :
      Step n skip cfg s (.claim i)
        { s with
            status := Function.update s.status i .doing
            active := s.active + 1
            pending := s.pending - 1 }
  | finishOk (s : KState) (i : Nat) (hi : i < n)
      (hst : s.status i = .doing) :
      Step n skip cfg s (.finishOk i)
        { s with
            status := Function.update s.status i (.out true)
            active := s.active - 1
            succ := s.succ + 1 }
  | finishErr (s : KState) (i : Nat) (hi : i < n)
      (hst : s.status i = .doing) :
      Step n skip cfg s (.finishErr i)
        { s with
            status := Function.update s.status i (.out true)
            active := s.active - 1
            fail := s.fail + 1 }

/-- Executions of the collector: chains of `Step`, collecting the labels. -/
inductive Trace (n : Nat) (skip : Nat → Bool) (cfg : KCfg) :
    KState → List KLabel → KState → Prop where
  | refl (s : KState) : Trace n skip cfg s [] s
  | step {s1 s2 s3 : KState} {l : KLabel} {ls : List KLabel} :
      Step n skip cfg s1 l s2 → Trace n skip cfg s2 ls s3 →
      Trace n skip cfg s1 (l :: ls) s3

/-- The point at which `Collect` returns: every non-skipped worker has
returned, so `limiter.Wait()` is done. -/
abbrev Terminal (n : Nat) (skip : Nat → Bool) (s : KState) : Prop :=
  ∀ i, i < n → skip i = false → ∃ b, s.status i = .out b

/-- Modelled from the spec: the limiter capacity of the LongTail-capable
collector — up to `concurrency + long_tail` operations run concurrently,
clamped by the number of non-skipped items as in `Collect`. -/
def collectLimit (concurrency longTail pending : Nat) : Nat :=
  min (concurrency + longTail) pending

/-- The collector's state invariant: skipped workers never start; `active`
counts the workers inside `do`; at most `limit` goroutines run at once;
`pending` counts the non-skipped unclaimed items; and a worker can only
have returned without claiming after the done or the impossible check
passed, properties that are stable under the remaining transitions. -/
def KInv (n : Nat) (skip : Nat → Bool) (cfg : KCfg) (s : KState) : Prop :=
  (∀ i, skip i = true → s.status i = .idle) ∧
  s.active = countW n s.status (fun _ w => doingWeight w) ∧
  countW n s.status (fun _ w => runningWeight w) ≤ cfg.limit ∧
  s.pending = countW n s.status (fun i w => if skip i then 0 else unclaimedWeight w) ∧
  ((∃ i, i < n ∧ s.status i = .out false) → KDone cfg s ∨ KImp cfg s)

/-- Concrete one-item run used by the collector witnesses: nothing
skipped. -/
def kwSkip : Nat → Bool := fun _ => false

/-- Initial witness state. -/
def kwS0 : KState := initState 1 kwSkip

/-- Witness configuration: `Concurrency = 3`, `LongTail = 2`,
`RequiredSuccesses = 1`, `RequiredFailures = 0`. -/
def kwCfg : KCfg := { reqS := 1, reqF := 0, limit := collectLimit 3 2 kwS0.pending }

/-- After the limiter starts worker 0. -/
def kwS1 : KState := { kwS0 with status := Function.update kwS0.status 0 .looping }

/-- After worker 0 claims its item. -/
def kwS2 : KState :=
  { kwS1 with
      status := Function.update kwS1.status 0 .doing
      active := kwS1.active + 1
      pending := kwS1.pending - 1 }

/-- After worker 0's `do` succeeds and the result is recorded. -/
def kwS3 : KState :=
  { kwS2 with
      status := Function.update kwS2.status 0 (.out true)
      active := kwS2.active - 1
      succ := kwS2.succ + 1 }

end Kofn


end StorjSpec

namespace StorjSpec

/-! ## Part 2: lemmas and claim theorems -/

namespace Taskqueue

theorem digitVal?_digitChar {d : Nat} (hd : d < 10) : digitVal? (digitChar d) = some d := by
  interval_cases d <;> decide

theorem digitChar_not_sign {d : Nat} (hd : d < 10) :
    digitChar d ≠ '-' ∧ digitChar d ≠ '+' := by
  interval_cases d <;> exact ⟨by decide, by decide⟩

theorem parseDigitsAux_append (acc : Nat) (xs ys : List Char) :
    parseDigitsAux acc (xs ++ ys) =
      match parseDigitsAux acc xs with
      | some a => parseDigitsAux a ys
      | none => none := by
  induction xs generalizing acc with
  | nil => simp [parseDigitsAux]
  | cons c cs ih =>
    simp only [List.cons_append, parseDigitsAux]
    cases digitVal? c with
    | none => rfl
    | some d => exact ih _

theorem natToCharsAux_head :
    ∀ fuel n, n < fuel → ∃ d cs, d < 10 ∧ natToCharsAux fuel n = digitChar d :: cs := by
  intro fuel
  induction fuel with
  | zero => intro n h; exact absurd h (Nat.not_lt_zero n)
  | succ f ih =>
    intro n h
    by_cases h10 : n < 10
    · exact ⟨n, [], h10, by simp [natToCharsAux, h10]⟩
    · have hdiv : n / 10 < f := by omega
      obtain ⟨d, cs, hd, heq⟩ := ih (n / 10) hdiv
      exact ⟨d, cs ++ [digitChar (n % 10)], hd, by simp [natToCharsAux, h10, heq]⟩

theorem natToCharsAux_parse :
    ∀ fuel n acc, n < fuel →
      parseDigitsAux acc (natToCharsAux fuel n) =
        some (acc * 10 ^ (natToCharsAux fuel n).length + n) := by
  intro fuel
  induction fuel with
  | zero => intro n acc h; exact absurd h (Nat.not_lt_zero n)
  | succ f ih =>
    intro n acc h
    by_cases h10 : n < 10
    · simp [natToCharsAux, h10, parseDigitsAux, digitVal?_digitChar h10]
    · have hdiv : n / 10 < f := by omega
      have hmod : n % 10 < 10 := Nat.mod_lt _ (by norm_num)
      simp only [natToCharsAux, if_neg h10]
      rw [parseDigitsAux_append, ih (n / 10) acc hdiv]
      simp only [parseDigitsAux, digitVal?_digitChar hmod, List.length_append,
        List.length_singleton]
      congr 1
      have key : ∀ A : Nat, (A + n / 10) * 10 + n % 10 = A * 10 + n := by
        intro A; omega
      rw [pow_succ, ← mul_assoc]
      exact key _

theorem parseNatDigits_natToChars (n : Nat) : parseNatDigits (natToChars n) = some n := by
  obtain ⟨d, cs, hd, heq⟩ := natToCharsAux_head (n + 1) n (Nat.lt_succ_self n)
  have hp := natToCharsAux_parse (n + 1) n 0 (Nat.lt_succ_self n)
  rw [heq] at hp
  rw [natToChars, heq, parseNatDigits, hp]
  simp

theorem natToChars_head (n : Nat) :
    ∃ d cs, d < 10 ∧ natToChars n = digitChar d :: cs :=
  natToCharsAux_head (n + 1) n (Nat.lt_succ_self n)

theorem parseUintStr_natToChars {n : Nat} (h : n < 2 ^ 64) :
    parseUintStr (natToChars n) = some n := by
  rw [parseUintStr, parseNatDigits_natToChars]
  simpa using h

theorem parseIntStr_intToChars {v : Int} (h1 : -(2 ^ 63) ≤ v) (h2 : v < 2 ^ 63) :
    parseIntStr (intToChars v) = some v := by
  by_cases hv : v < 0
  · rw [intToChars, if_pos hv, parseIntStr, if_pos rfl, parseNatDigits_natToChars]
    have hle : v.natAbs ≤ 2 ^ 63 := by omega
    simp only [hle, if_true, Option.some.injEq]
    omega
  · obtain ⟨d, cs, hd, heq⟩ := natToChars_head v.toNat
    have hne := digitChar_not_sign hd
    rw [intToChars, if_neg hv, heq, parseIntStr, if_neg hne.1, if_neg hne.2, ← heq,
      parseNatDigits_natToChars]
    have hlt : v.toNat < 2 ^ 63 := by omega
    simp only [hlt, if_true, Option.some.injEq]
    omega

theorem hexVal?_hexDigitChar {d : Nat} (hd : d < 16) : hexVal? (hexDigitChar d) = some d := by
  interval_cases d <;> decide

theorem hexDecode_hexEncode :
    ∀ bs : List Nat, (∀ b ∈ bs, b < 256) → hexDecode (hexEncode bs) = some bs := by
  intro bs
  induction bs with
  | nil => intro _; rfl
  | cons b bs ih =>
    intro h
    have hb : b < 256 := h b (List.mem_cons_self b bs)
    have h16a : b / 16 < 16 := by omega
    have h16b : b % 16 < 16 := by omega
    rw [hexEncode, hexDecode, hexVal?_hexDigitChar h16a, hexVal?_hexDigitChar h16b,
      ih (fun x hx => h x (List.mem_cons_of_mem b hx))]
    simp only [Option.map_some', Option.some.injEq, List.cons.injEq]
    exact ⟨by omega, trivial⟩

theorem data_mk (l : List Char) : (String.mk l).data = l := rfl

theorem parseBool_formatBool (b : Bool) : parseBool (formatBool b) = some b := by
  cases b <;> rfl

theorem stringToField_fieldToString {F32 F64 : Type} (c32 : FloatCodec F32)
    (c64 : FloatCodec F64) (h32 : ∀ x, c32.parse (c32.format x) = some x)
    (h64 : ∀ x, c64.parse (c64.format x) = some x) (v : FieldVal F32 F64)
    (hwf : wfField v = true) :
    stringToField c32 c64 v (fieldToString c32 c64 v) = some v := by
  cases v with
  | str s => rfl
  | int w n =>
    simp only [wfField, Bool.and_eq_true, Bool.or_eq_true, decide_eq_true_eq] at hwf
    obtain ⟨⟨hw, hlo⟩, hhi⟩ := hwf
    have hb1 : -(2 ^ 63) ≤ n := by
      rcases hw with ((rfl | rfl) | rfl) | rfl <;> norm_num at hlo ⊢ <;> omega
    have hb2 : n < 2 ^ 63 := by
      rcases hw with ((rfl | rfl) | rfl) | rfl <;> norm_num at hhi ⊢ <;> omega
    simp only [stringToField, fieldToString, data_mk]
    rw [parseIntStr_intToChars hb1 hb2]
    simp only [Option.map_some', Option.some.injEq, FieldVal.int.injEq, true_and]
    rcases hw with ((rfl | rfl) | rfl) | rfl <;> norm_num [wrapInt] at hlo hhi ⊢ <;> omega
  | uint w n =>
    simp only [wfField, Bool.and_eq_true, Bool.or_eq_true, decide_eq_true_eq] at hwf
    obtain ⟨hw, hv⟩ := hwf
    have hb : n < 2 ^ 64 := by
      rcases hw with ((rfl | rfl) | rfl) | rfl <;> norm_num at hv ⊢ <;> omega
    simp only [stringToField, fieldToString, data_mk]
    rw [parseUintStr_natToChars hb]
    simp only [Option.map_some', Option.some.injEq, FieldVal.uint.injEq, true_and]
    rcases hw with ((rfl | rfl) | rfl) | rfl <;> norm_num [wrapUint] at hv ⊢ <;> omega
  | float32 x =>
    simp only [stringToField, fieldToString, data_mk, h32 x, Option.map_some']
  | float64 x =>
    simp only [stringToField, fieldToString, data_mk, h64 x, Option.map_some']
  | bool b => cases b <;> rfl
  | bytes bs =>
    simp only [wfField, List.all_eq_true, decide_eq_true_eq] at hwf
    simp only [stringToField, fieldToString, data_mk]
    rw [hexDecode_hexEncode bs hwf]
    rfl
  | byteArray m bs =>
    simp only [wfField, Bool.and_eq_true, List.all_eq_true, decide_eq_true_eq] at hwf
    obtain ⟨hlen, hbs⟩ := hwf
    simp only [stringToField, fieldToString, data_mk]
    rw [hexDecode_hexEncode bs hbs]
    simp [hlen]

theorem marshalStruct_foldl_skip {F32 F64 : Type} (c32 : FloatCodec F32)
    (c64 : FloatCodec F64) :
    ∀ (fs : List (Field F32 F64)) (m : String → Option String) (k : String),
      (∀ f ∈ fs, f.name ≠ k) →
      fs.foldl
        (fun m f => fun k' =>
          if k' = f.name then some (fieldToString c32 c64 f.val) else m k') m k
        = m k := by
  intro fs
  induction fs with
  | nil => intro m k _; rfl
  | cons f fs ih =>
    intro m k h
    simp only [List.foldl_cons]
    rw [ih _ k (fun g hg => h g (List.mem_cons_of_mem f hg))]
    simp [Ne.symm (h f (List.mem_cons_self f fs))]

theorem marshalStruct_lookup {F32 F64 : Type} (c32 : FloatCodec F32)
    (c64 : FloatCodec F64) :
    ∀ (fs : List (Field F32 F64)) (m : String → Option String) (f : Field F32 F64),
      f ∈ fs → (fs.map Field.name).Nodup →
      fs.foldl
        (fun m f => fun k' =>
          if k' = f.name then some (fieldToString c32 c64 f.val) else m k') m f.name
        = some (fieldToString c32 c64 f.val) := by
  intro fs
  induction fs with
  | nil => intro m f hf _; exact absurd hf (List.not_mem_nil f)
  | cons g fs ih =>
    intro m f hmem hnd
    simp only [List.map_cons, List.nodup_cons] at hnd
    rcases List.mem_cons.mp hmem with rfl | hf
    · simp only [List.foldl_cons]
      rw [marshalStruct_foldl_skip c32 c64 fs _ f.name ?_]
      · simp
      · intro t ht heq
        exact hnd.1 (heq ▸ List.mem_map_of_mem Field.name ht)
    · simp only [List.foldl_cons]
      exact ih _ f hf hnd.2

theorem marshalStruct_lookup_name {F32 F64 : Type} (c32 : FloatCodec F32)
    (c64 : FloatCodec F64) (fs : List (Field F32 F64)) (f : Field F32 F64)
    (hf : f ∈ fs) (hnd : (fs.map Field.name).Nodup) :
    marshalStruct c32 c64 fs f.name = some (fieldToString c32 c64 f.val) :=
  marshalStruct_lookup c32 c64 fs _ f hf hnd

theorem unmarshalStruct_roundtrip_aux {F32 F64 : Type} (c32 : FloatCodec F32)
    (c64 : FloatCodec F64) (h32 : ∀ x, c32.parse (c32.format x) = some x)
    (h64 : ∀ x, c64.parse (c64.format x) = some x)
    (values : String → Option RedisVal) :
    ∀ fs : List (Field F32 F64),
      (∀ f ∈ fs, values f.name = some (.str (fieldToString c32 c64 f.val))) →
      (∀ f ∈ fs, wfField f.val = true) →
      unmarshalStruct c32 c64 values fs = (fs, false) := by
  intro fs
  induction fs with
  | nil => intro _ _; rfl
  | cons f fs ih =>
    intro hv hw
    simp only [unmarshalStruct, hv f (List.mem_cons_self f fs),
      stringToField_fieldToString c32 c64 h32 h64 f.val (hw f (List.mem_cons_self f fs)),
      ih (fun g hg => hv g (List.mem_cons_of_mem f hg))
        (fun g hg => hw g (List.mem_cons_of_mem f hg))]

/-- **C3 (counterexample).** The round trip is not the identity for every
struct whose exported, non-skipped fields have supported types: two fields
whose mapped keys collide (`dupFields`) marshal into a single map entry, and
unmarshalling writes the surviving value into both fields. -/
theorem marshal_unmarshal_dup_key_counterexample :
    unmarshalStruct unitCodec unitCodec
        (fun k => (marshalStruct unitCodec unitCodec dupFields k).map RedisVal.str)
        dupFields
      ≠ (dupFields, false) := by
  decide

/-- **C3 (amended).** For every struct value whose exported, non-skipped
fields all have supported types *and pairwise distinct mapped keys*, applying
`unmarshalStruct` to the map produced by `marshalStruct` reconstructs the
original struct (and reports no error).  Integer fields round-trip through
base-10, byte slices and arrays through hex, booleans through
`true`/`false`; the abstract float codecs carry `strconv`'s documented
shortest-decimal round-trip guarantee as a hypothesis. -/
theorem unmarshal_marshal_roundtrip {F32 F64 : Type} (c32 : FloatCodec F32)
    (c64 : FloatCodec F64) (h32 : ∀ x, c32.parse (c32.format x) = some x)
    (h64 : ∀ x, c64.parse (c64.format x) = some x)
    (fs : List (Field F32 F64)) (hnd : (fs.map Field.name).Nodup)
    (hwf : ∀ f ∈ fs, wfField f.val = true) :
    unmarshalStruct c32 c64
        (fun k => (marshalStruct c32 c64 fs k).map RedisVal.str) fs
      = (fs, false) := by
  apply unmarshalStruct_roundtrip_aux c32 c64 h32 h64
  · intro f hf
    rw [marshalStruct_lookup_name c32 c64 fs f hf hnd]
    rfl
  · exact hwf

/-- Witness for the amended C3 round-trip theorem at a concrete record
covering every supported field kind. -/
theorem unmarshal_marshal_roundtrip_witness :
    (∀ x, unitCodec.parse (unitCodec.format x) = some x) ∧
    ((sampleFields.map Field.name).Nodup) ∧
    (∀ f ∈ sampleFields, wfField f.val = true) ∧
    unmarshalStruct unitCodec unitCodec
        (fun k => (marshalStruct unitCodec unitCodec sampleFields k).map RedisVal.str)
        sampleFields
      = (sampleFields, false) := by
  refine ⟨fun x => rfl, by decide, by decide, ?_⟩
  exact unmarshal_marshal_roundtrip unitCodec unitCodec (fun x => rfl) (fun x => rfl)
    sampleFields (by decide) (by decide)

/-- **C10.** For every destination struct and every values map,
`unmarshalStruct` writes only those fields of the destination whose mapped
key is present in the map: every field whose key is absent is returned
unchanged (at its original position), on the error path as well. -/
theorem unmarshalStruct_frame {F32 F64 : Type} (c32 : FloatCodec F32)
    (c64 : FloatCodec F64) (values : String → Option RedisVal) :
    ∀ (fs : List (Field F32 F64)) (i : Nat) (f : Field F32 F64),
      fs.get? i = some f → values f.name = none →
      (unmarshalStruct c32 c64 values fs).1.get? i = some f := by
  intro fs
  induction fs with
  | nil => intro i f h _; simp at h
  | cons g fs ih =>
    intro i f hget hnone
    cases hval : values g.name with
    | none =>
      simp only [unmarshalStruct, hval]
      cases i with
      | zero => exact hget
      | succ i =>
        simp only [List.get?_cons_succ] at hget ⊢
        exact ih i f hget hnone
    | some rv =>
      cases rv with
      | nonstring => simp only [unmarshalStruct, hval]; exact hget
      | str s =>
        cases hsf : stringToField c32 c64 g.val s with
        | none => simp only [unmarshalStruct, hval, hsf]; exact hget
        | some v =>
          simp only [unmarshalStruct, hval, hsf]
          cases i with
          | zero =>
            simp only [List.get?_cons_zero, Option.some.injEq] at hget
            rw [← hget] at hnone
            rw [hnone] at hval
            exact absurd hval (by simp)
          | succ i =>
            simp only [List.get?_cons_succ] at hget ⊢
            exact ih i f hget hnone

/-- Witness for the C10 frame theorem: a two-field destination whose second
field's key is absent from the values map is returned unchanged. -/
theorem unmarshalStruct_frame_witness :
    ([⟨"a", .bool true⟩, ⟨"b", .int 64 1⟩] :
        List (Field Unit Unit)).get? 1 = some ⟨"b", .int 64 1⟩ ∧
    ((fun k => if k = "a" then some (RedisVal.str "true") else none) ("b")
        = (none : Option RedisVal)) ∧
    (unmarshalStruct unitCodec unitCodec
        (fun k => if k = "a" then some (RedisVal.str "true") else none)
        [⟨"a", .bool true⟩, ⟨"b", .int 64 1⟩]).1.get? 1
      = some ⟨"b", .int 64 1⟩ := by
  refine ⟨rfl, by decide, ?_⟩
  exact unmarshalStruct_frame unitCodec unitCodec _ _ 1 _ rfl (by decide)

end Taskqueue

namespace Jobqueue

theorem keyLtB_true_iff {a b : Int × Int} :
    keyLtB a b = true ↔ a.1 < b.1 ∨ (a.1 = b.1 ∧ a.2 < b.2) := by
  simp [keyLtB]

theorem keyLtB_false_iff {a b : Int × Int} :
    keyLtB a b = false ↔ ¬(a.1 < b.1 ∨ (a.1 = b.1 ∧ a.2 < b.2)) := by
  rw [← keyLtB_true_iff]
  cases keyLtB a b <;> simp

theorem keyLtB_irrefl (a : Int × Int) : keyLtB a a = false := by
  rw [keyLtB_false_iff]
  omega

theorem worstOf?_foldl_spec :
    ∀ (l : List Job) (w0 : Job),
      ∃ w, l.foldl worstStep (some w0) = some w ∧
        w ∈ w0 :: l ∧ ∀ x ∈ w0 :: l, keyLtB (jobKey w) (jobKey x) = false := by
  intro l
  induction l with
  | nil =>
    intro w0
    refine ⟨w0, rfl, List.mem_cons_self w0 [], ?_⟩
    intro x hx
    rcases List.mem_cons.mp hx with rfl | hx
    · exact keyLtB_irrefl _
    · exact absurd hx (List.not_mem_nil x)
  | cons x l ih =>
    intro w0
    simp only [List.foldl_cons]
    by_cases hcmp : keyLtB (jobKey w0) (jobKey x) = true
    · rw [show worstStep (some w0) x = some x from by rw [worstStep, if_pos hcmp]]
      obtain ⟨w, hw, hmem, hmax⟩ := ih x
      refine ⟨w, hw, ?_, ?_⟩
      · exact List.mem_cons_of_mem w0 hmem
      · intro y hy
        rcases List.mem_cons.mp hy with rfl | hy'
        · have h1 := hmax x (List.mem_cons_self x l)
          rw [keyLtB_false_iff] at h1 ⊢
          rw [keyLtB_true_iff] at hcmp
          omega
        · exact hmax y hy'
    · have hcmp' : keyLtB (jobKey w0) (jobKey x) = false := by
        cases h : keyLtB (jobKey w0) (jobKey x) <;> simp_all
      rw [show worstStep (some w0) x = some w0 from by rw [worstStep, if_neg hcmp]]
      obtain ⟨w, hw, hmem, hmax⟩ := ih w0
      refine ⟨w, hw, ?_, ?_⟩
      · rcases List.mem_cons.mp hmem with rfl | hm
        · exact List.mem_cons_self w _
        · exact List.mem_cons_of_mem _ (List.mem_cons_of_mem _ hm)
      · intro y hy
        rcases List.mem_cons.mp hy with rfl | hy'
        · exact hmax _ (List.mem_cons_self _ _)
        rcases List.mem_cons.mp hy' with rfl | hy''
        · have h1 := hmax w0 (List.mem_cons_self _ _)
          rw [keyLtB_false_iff] at h1 hcmp' ⊢
          omega
        · exact hmax y (List.mem_cons_of_mem _ hy'')

theorem worstOf?_spec (l : List Job) (hl : l ≠ []) :
    ∃ w, worstOf? l = some w ∧ w ∈ l ∧
      ∀ x ∈ l, keyLtB (jobKey w) (jobKey x) = false := by
  cases l with
  | nil => exact absurd rfl hl
  | cons x l =>
    rw [worstOf?, List.foldl_cons]
    exact worstOf?_foldl_spec l x

theorem bestOf?_foldl_spec :
    ∀ (l : List Job) (b0 : Job),
      ∃ b, l.foldl bestStep (some b0) = some b ∧
        b ∈ b0 :: l ∧ ∀ x ∈ b0 :: l, keyLtB (jobKey x) (jobKey b) = false := by
  intro l
  induction l with
  | nil =>
    intro b0
    refine ⟨b0, rfl, List.mem_cons_self b0 [], ?_⟩
    intro x hx
    rcases List.mem_cons.mp hx with rfl | hx
    · exact keyLtB_irrefl _
    · exact absurd hx (List.not_mem_nil x)
  | cons x l ih =>
    intro b0
    simp only [List.foldl_cons]
    by_cases hcmp : keyLtB (jobKey x) (jobKey b0) = true
    · rw [show bestStep (some b0) x = some x from by rw [bestStep, if_pos hcmp]]
      obtain ⟨b, hb, hmem, hmin⟩ := ih x
      refine ⟨b, hb, List.mem_cons_of_mem b0 hmem, ?_⟩
      intro y hy
      rcases List.mem_cons.mp hy with rfl | hy'
      · have h1 := hmin x (List.mem_cons_self x l)
        rw [keyLtB_false_iff] at h1 ⊢
        rw [keyLtB_true_iff] at hcmp
        omega
      · exact hmin y hy'
    · have hcmp' : keyLtB (jobKey x) (jobKey b0) = false := by
        cases h : keyLtB (jobKey x) (jobKey b0) <;> simp_all
      rw [show bestStep (some b0) x = some b0 from by rw [bestStep, if_neg hcmp]]
      obtain ⟨b, hb, hmem, hmin⟩ := ih b0
      refine ⟨b, hb, ?_, ?_⟩
      · rcases List.mem_cons.mp hmem with rfl | hm
        · exact List.mem_cons_self b _
        · exact List.mem_cons_of_mem _ (List.mem_cons_of_mem _ hm)
      · intro y hy
        rcases List.mem_cons.mp hy with rfl | hy'
        · exact hmin _ (List.mem_cons_self _ _)
        rcases List.mem_cons.mp hy' with rfl | hy''
        · have h1 := hmin b0 (List.mem_cons_self _ _)
          rw [keyLtB_false_iff] at h1 hcmp' ⊢
          omega
        · exact hmin y (List.mem_cons_of_mem _ hy'')

theorem bestOf?_spec (l : List Job) (hl : l ≠ []) :
    ∃ b, bestOf? l = some b ∧ b ∈ l ∧
      ∀ x ∈ l, keyLtB (jobKey x) (jobKey b) = false := by
  cases l with
  | nil => exact absurd rfl hl
  | cons x l =>
    rw [bestOf?, List.foldl_cons]
    exact bestOf?_foldl_spec l x

theorem bestOf?_eq_none {l : List Job} (h : bestOf? l = none) : l = [] := by
  cases l with
  | nil => rfl
  | cons x l =>
    obtain ⟨b, hb, _, _⟩ := bestOf?_spec (x :: l) (by simp)
    rw [h] at hb
    exact absurd hb (by simp)

theorem length_filter_not_add {α : Type} (p : α → Bool) (l : List α) :
    (l.filter p).length + (l.filter (fun a => !(p a))).length = l.length := by
  induction l with
  | nil => rfl
  | cons a l ih => cases h : p a <;> simp [List.filter_cons, h] <;> omega

theorem promote_retryAfter (q : Queue) (now : Int) :
    (promote q now).retryAfter = q.retryAfter := rfl

theorem promote_maxElems (q : Queue) (now : Int) :
    (promote q now).maxElems = q.maxElems := rfl

theorem promote_repairH (q : Queue) (now : Int) :
    (promote q now).repairH = q.repairH ++ q.retryH.filter (fun j => eligible q j now) :=
  rfl

theorem promote_totalLen (q : Queue) (now : Int) :
    (promote q now).totalLen = q.totalLen := by
  have := length_filter_not_add (fun j => eligible q j now) q.retryH
  simp only [promote, Queue.totalLen, List.length_append]
  omega

theorem eligible_congr {q q' : Queue} (h : q'.retryAfter = q.retryAfter)
    (j : Job) (now : Int) : eligible q' j now = eligible q j now := by
  rw [eligible, eligible, h]

theorem promote_eq_self_of (q : Queue) (now : Int)
    (h : q.retryH.filter (fun j => eligible q j now) = []) : promote q now = q := by
  have hall : ∀ j ∈ q.retryH, ¬(eligible q j now = true) := by
    rw [← List.filter_eq_nil_iff]
    exact h
  cases q with
  | mk rep ret me ra =>
    simp only [promote, Queue.mk.injEq, true_and, and_true]
    constructor
    · simp only at h
      rw [h, List.append_nil]
    · simp only at hall
      apply List.filter_eq_self.mpr
      intro j hj
      simp [hall j hj]

theorem popQ_none (q : Queue) (now : Int) (q' : Queue)
    (h : popQ q now = (none, q')) :
    (promote q now).repairH = [] ∧ q' = promote q now := by
  rcases hb : bestOf? (promote q now).repairH with _ | b
  · simp only [popQ, hb, Prod.mk.injEq, true_and] at h
    exact ⟨bestOf?_eq_none hb, h.symm⟩
  · simp [popQ, hb] at h

theorem popQ_some (q : Queue) (now : Int) (j : Job) (q' : Queue)
    (h : popQ q now = (some j, q')) :
    j ∈ (promote q now).repairH ∧
    (∀ x ∈ (promote q now).repairH, keyLtB (jobKey x) (jobKey j) = false) ∧
    q' = { promote q now with repairH := (promote q now).repairH.erase j } := by
  rcases hb : bestOf? (promote q now).repairH with _ | b
  · simp [popQ, hb] at h
  · have hne : (promote q now).repairH ≠ [] := by
      intro hnil
      rw [hnil] at hb
      exact absurd hb (by simp [bestOf?])
    obtain ⟨b', hb', hmem, hmin⟩ := bestOf?_spec _ hne
    rw [hb] at hb'
    injection hb' with hbb
    subst hbb
    simp only [popQ, hb, Prod.mk.injEq, Option.some.injEq] at h
    obtain ⟨h1, h2⟩ := h
    subst h1
    exact ⟨hmem, hmin, h2.symm⟩

theorem popQ_some_promoted (q : Queue) (now : Int) (j : Job) (q' : Queue)
    (h : popQ q now = (some j, q')) : promote q' now = q' := by
  obtain ⟨_, _, hq⟩ := popQ_some q now j q' h
  subst hq
  apply promote_eq_self_of
  have hcongr : ∀ x t, eligible { promote q now with
      repairH := (promote q now).repairH.erase j } x t = eligible q x t :=
    fun x t => eligible_congr rfl x t
  simp only [hcongr]
  have : (promote q now).retryH = q.retryH.filter (fun x => !(eligible q x now)) := rfl
  rw [this, List.filter_filter]
  apply List.filter_eq_nil_iff.mpr
  intro x _
  cases eligible q x now <;> simp

theorem popAllAux_spec :
    ∀ (fuel : Nat) (q : Queue) (now : Int),
      (promote q now).repairH.length ≤ fuel →
      (popAllAux fuel q now).Perm ((promote q now).repairH) ∧
      (popAllAux fuel q now).Pairwise
        (fun a b => keyLtB (jobKey b) (jobKey a) = false) := by
  intro fuel
  induction fuel with
  | zero =>
    intro q now h
    have hnil : (promote q now).repairH = [] :=
      List.eq_nil_of_length_eq_zero (Nat.le_zero.mp h)
    rw [popAllAux, hnil]
    exact ⟨List.Perm.refl [], List.Pairwise.nil⟩
  | succ f ih =>
    intro q now h
    rcases hpop : popQ q now with ⟨r, q'⟩
    cases r with
    | none =>
      obtain ⟨hnil, _⟩ := popQ_none q now q' hpop
      rw [popAllAux, hpop, hnil]
      exact ⟨List.Perm.refl [], List.Pairwise.nil⟩
    | some j =>
      obtain ⟨hjmem, hjmin, hq'⟩ := popQ_some q now j q' hpop
      have hprom : promote q' now = q' := popQ_some_promoted q now j q' hpop
      have hrep : (promote q' now).repairH = (promote q now).repairH.erase j := by
        rw [hprom, hq']
      have hlen : (promote q' now).repairH.length ≤ f := by
        rw [hrep, List.length_erase_of_mem hjmem]
        omega
      obtain ⟨ihperm, ihpw⟩ := ih q' now hlen
      rw [popAllAux, hpop]
      constructor
      · have p1 : (j :: popAllAux f q' now).Perm (j :: (promote q now).repairH.erase j) := by
          rw [← hrep]
          exact ihperm.cons j
        exact p1.trans (List.perm_cons_erase hjmem).symm
      · refine List.Pairwise.cons ?_ ihpw
        intro x hx
        have hx' : x ∈ (promote q now).repairH := by
          have : x ∈ (promote q' now).repairH := ihperm.mem_iff.mp hx
          rw [hrep] at this
          exact List.mem_of_mem_erase this
        exact hjmin x hx'

theorem popAll_spec (q : Queue) (now : Int) :
    (popAll q now).Perm ((promote q now).repairH) ∧
    (popAll q now).Pairwise (fun a b => keyLtB (jobKey b) (jobKey a) = false) := by
  apply popAllAux_spec
  have h1 : (promote q now).repairH.length ≤ (promote q now).totalLen := by
    rw [Queue.totalLen]
    omega
  rw [promote_totalLen] at h1
  exact h1

theorem sublist_pair_of_pairwise {α : Type} {R : α → α → Prop} :
    ∀ l : List α, l.Pairwise R → ∀ a b, a ∈ l → b ∈ l → ¬ R b a → a ≠ b →
      List.Sublist [a, b] l := by
  intro l
  induction l with
  | nil => intro _ a b ha _ _ _; exact absurd ha (List.not_mem_nil a)
  | cons h t ih =>
    intro hp a b ha hb hnR hne
    rw [List.pairwise_cons] at hp
    rcases List.mem_cons.mp ha with rfl | hat
    · have hbt : b ∈ t := by
        rcases List.mem_cons.mp hb with rfl | hb'
        · exact absurd rfl hne
        · exact hb'
      exact List.Sublist.cons₂ a (List.singleton_sublist.mpr hbt)
    · rcases List.mem_cons.mp hb with rfl | hbt
      · exact absurd (hp.1 a hat) hnR
      · exact List.Sublist.cons h (ih hp.2 a b hat hbt hnR hne)

theorem keyLtB_trans {a b c : Int × Int} (h1 : keyLtB a b = true)
    (h2 : keyLtB b c = true) : keyLtB a c = true := by
  rw [keyLtB_true_iff] at h1 h2 ⊢
  omega

theorem key_trans_lt {a b c : Int × Int} (h1 : keyLtB b a = false)
    (h2 : keyLtB c b = false) (hne : a ≠ c) : keyLtB a c = true := by
  rw [keyLtB_false_iff] at h1 h2
  rw [keyLtB_true_iff]
  rw [Ne, Prod.ext_iff, not_and_or] at hne
  omega

/-- **C4.** For every placement queue and any two jobs `j1`, `j2` both in the
repair heap, if `segment_health(j1) < segment_health(j2)` — or the healths
are equal and `inserted_at(j1) < inserted_at(j2)`, the deterministic
tie-breaker — then the sequence of successive `Pop`s returns `j1` before
`j2`. -/
theorem pop_respects_priority (q : Queue) (now : Int) (j1 j2 : Job)
    (h1 : j1 ∈ q.repairH) (h2 : j2 ∈ q.repairH)
    (hlt : keyLtB (jobKey j1) (jobKey j2) = true) :
    List.Sublist [j1, j2] (popAll q now) := by
  obtain ⟨hperm, hpw⟩ := popAll_spec q now
  have hm1 : j1 ∈ popAll q now := by
    rw [hperm.mem_iff, promote_repairH]
    exact List.mem_append_left _ h1
  have hm2 : j2 ∈ popAll q now := by
    rw [hperm.mem_iff, promote_repairH]
    exact List.mem_append_left _ h2
  have hne : j1 ≠ j2 := by
    rintro rfl
    rw [keyLtB_irrefl] at hlt
    exact absurd hlt (by decide)
  refine sublist_pair_of_pairwise _ hpw j1 j2 hm1 hm2 ?_ hne
  intro hc
  rw [hlt] at hc
  exact absurd hc (by decide)

/-- Witness for C4: three jobs with healths 3, 1, 2; the job with health 1 is
popped before the job with health 2. -/
theorem pop_respects_priority_witness :
    jobB ∈ sampleQueue.repairH ∧ jobC ∈ sampleQueue.repairH ∧
    keyLtB (jobKey jobB) (jobKey jobC) = true ∧
    List.Sublist [jobB, jobC] (popAll sampleQueue 0) := by
  refine ⟨by decide, by decide, by decide, ?_⟩
  exact pop_respects_priority sampleQueue 0 jobB jobC (by decide) (by decide) (by decide)


theorem totalLen_eq_jobs_length (q : Queue) : q.totalLen = q.jobs.length := by
  simp [Queue.totalLen, Queue.jobs]

theorem insertJob_maxElems (q : Queue) (j : Job) (now : Int) :
    (insertJob q j now).maxElems = q.maxElems := by
  rw [insertJob]; split <;> rfl

theorem insertJob_retryAfter (q : Queue) (j : Job) (now : Int) :
    (insertJob q j now).retryAfter = q.retryAfter := by
  rw [insertJob]; split <;> rfl

theorem insertJob_jobs_perm (q : Queue) (j : Job) (now : Int) :
    ((insertJob q j now).jobs).Perm (j :: q.jobs) := by
  rw [insertJob]; split
  · show (q.repairH ++ (q.retryH ++ [j])).Perm (j :: (q.repairH ++ q.retryH))
    rw [← List.append_assoc]
    exact List.perm_append_singleton j (q.repairH ++ q.retryH)
  · show ((q.repairH ++ [j]) ++ q.retryH).Perm (j :: (q.repairH ++ q.retryH))
    rw [List.append_assoc]
    exact List.perm_middle

theorem eraseJob_maxElems (q : Queue) (w : Job) :
    (eraseJob q w).maxElems = q.maxElems := by
  rw [eraseJob]; split <;> rfl

theorem eraseJob_retryAfter (q : Queue) (w : Job) :
    (eraseJob q w).retryAfter = q.retryAfter := by
  rw [eraseJob]; split <;> rfl

theorem eraseJob_jobs (q : Queue) (w : Job) :
    (eraseJob q w).jobs = q.jobs.erase w := by
  rw [eraseJob]; split
  · next hmem =>
    show q.repairH.erase w ++ q.retryH = (q.repairH ++ q.retryH).erase w
    rw [List.erase_append_left _ hmem]
  · next hmem =>
    show q.repairH ++ q.retryH.erase w = (q.repairH ++ q.retryH).erase w
    rw [List.erase_append_right _ hmem]

theorem worstOf?_mem {l : List Job} {w : Job} (h : worstOf? l = some w) : w ∈ l := by
  cases l with
  | nil => simp [worstOf?] at h
  | cons x t =>
    obtain ⟨w', hw', hmem, _⟩ := worstOf?_spec (x :: t) (by simp)
    rw [h] at hw'
    injection hw' with he
    exact he ▸ hmem

theorem push_maxElems (q : Queue) (j : Job) (now : Int) :
    (push q j now).maxElems = q.maxElems := by
  rw [push]; split
  · exact insertJob_maxElems q j now
  · rcases worstOf? q.jobs with _ | w
    · rfl
    · simp only []
      split
      · rw [insertJob_maxElems, eraseJob_maxElems]
      · rfl

theorem push_retryAfter (q : Queue) (j : Job) (now : Int) :
    (push q j now).retryAfter = q.retryAfter := by
  rw [push]; split
  · exact insertJob_retryAfter q j now
  · rcases worstOf? q.jobs with _ | w
    · rfl
    · simp only []
      split
      · rw [insertJob_retryAfter, eraseJob_retryAfter]
      · rfl


theorem insertJob_totalLen (q : Queue) (j : Job) (now : Int) :
    (insertJob q j now).totalLen = q.totalLen + 1 := by
  rw [totalLen_eq_jobs_length, totalLen_eq_jobs_length,
    (insertJob_jobs_perm q j now).length_eq]
  rfl

theorem map_jobKey_subset {l P : List Job} (h : ∀ x ∈ l, x ∈ P) :
    ∀ k ∈ l.map jobKey, k ∈ P.map jobKey := by
  intro k hk
  obtain ⟨x, hx, rfl⟩ := List.mem_map.mp hk
  exact List.mem_map_of_mem _ (h x hx)

theorem push_step_inv (q : Queue) (P : List Job) (j : Job) (now : Int)
    (hfresh : jobKey j ∉ P.map jobKey)
    (hinv : PushedInv P q) :
    PushedInv (P ++ [j]) (push q j now) := by
  obtain ⟨hsub, hnd, hlen, hlow⟩ := hinv
  have hjnotin : j ∉ q.jobs := fun hj =>
    hfresh (map_jobKey_subset hsub _ (List.mem_map_of_mem _ hj))
  have hkey_notin : jobKey j ∉ q.jobs.map jobKey := fun hk =>
    hfresh (map_jobKey_subset hsub _ hk)
  have hjobs_nodup : q.jobs.Nodup := hnd.of_map
  rw [push]
  split
  · next hlt =>
    have hperm := insertJob_jobs_perm q j now
    have hjl : q.jobs.length < q.maxElems := by
      rw [← totalLen_eq_jobs_length]
      exact hlt
    have hPfull : q.jobs.length = P.length := by omega
    have hall : ∀ y ∈ P, y ∈ q.jobs := by
      intro y hy
      have hsp : q.jobs.Subperm P := hjobs_nodup.subperm (fun x hx => hsub x hx)
      have hqp : q.jobs.Perm P := hsp.perm_of_length_le (by omega)
      exact hqp.mem_iff.mpr hy
    refine ⟨?_, ?_, ?_, ?_⟩
    · intro x hx
      rcases List.mem_cons.mp (hperm.mem_iff.mp hx) with rfl | hx'
      · exact List.mem_append_right P (List.mem_singleton.mpr rfl)
      · exact List.mem_append_left _ (hsub x hx')
    · have hmp : ((insertJob q j now).jobs.map jobKey).Perm
          (jobKey j :: q.jobs.map jobKey) := by
        have := hperm.map jobKey
        simpa using this
      exact hmp.nodup_iff.mpr (List.nodup_cons.mpr ⟨hkey_notin, hnd⟩)
    · rw [hperm.length_eq, insertJob_maxElems]
      simp only [List.length_cons, List.length_append, List.length_singleton,
        List.length_nil]
      omega
    · intro x hx y hy hnx
      rcases List.mem_append.mp hy with hyP | hyj
      · exact absurd (hperm.mem_iff.mpr (List.mem_cons_of_mem j (hall y hyP))) hnx
      · have hyj' : y = j := List.mem_singleton.mp hyj
        refine absurd (hperm.mem_iff.mpr ?_) hnx
        rw [hyj']
        exact List.mem_cons_self j _
  · next hge =>
    have htl : q.maxElems ≤ q.jobs.length := by
      rw [← totalLen_eq_jobs_length]
      omega
    split
    · next heq =>
      have hnil : q.jobs = [] := by
        by_contra hne
        obtain ⟨w, hw, _, _⟩ := worstOf?_spec q.jobs hne
        rw [heq] at hw
        exact Option.noConfusion hw
      have h0 : q.jobs.length = 0 := by rw [hnil]; rfl
      have hm0 : q.maxElems = 0 := by omega
      refine ⟨fun x hx => List.mem_append_left _ (hsub x hx), hnd, ?_, ?_⟩
      · rw [h0, hm0]
        simp
      · intro x hx
        rw [hnil] at hx
        exact absurd hx (List.not_mem_nil x)
    · next w heq =>
      have hwmem : w ∈ q.jobs := worstOf?_mem heq
      have hwmax : ∀ x ∈ q.jobs, keyLtB (jobKey w) (jobKey x) = false := by
        obtain ⟨w', hw', _, hmax⟩ := worstOf?_spec q.jobs (List.ne_nil_of_mem hwmem)
        rw [heq] at hw'
        injection hw' with hww
        exact hww ▸ hmax
      have hmaxle : q.maxElems ≤ P.length := by omega
      have hjlmax : q.jobs.length = q.maxElems := by omega
      split
      · next hjw =>
        have hperm1 : ((insertJob (eraseJob q w) j now).jobs).Perm
            (j :: q.jobs.erase w) := by
          have h1 := insertJob_jobs_perm (eraseJob q w) j now
          rw [eraseJob_jobs q w] at h1
          exact h1
        refine ⟨?_, ?_, ?_, ?_⟩
        · intro x hx
          rcases List.mem_cons.mp (hperm1.mem_iff.mp hx) with rfl | hx'
          · exact List.mem_append_right P (List.mem_singleton.mpr rfl)
          · exact List.mem_append_left _ (hsub x (List.mem_of_mem_erase hx'))
        · have hmp : ((insertJob (eraseJob q w) j now).jobs.map jobKey).Perm
              (jobKey j :: (q.jobs.erase w).map jobKey) := by
            have := hperm1.map jobKey
            simpa using this
          apply hmp.nodup_iff.mpr
          apply List.nodup_cons.mpr
          constructor
          · intro hk
            exact hkey_notin (((q.jobs.erase_sublist w).map jobKey).subset hk)
          · exact hnd.sublist ((q.jobs.erase_sublist w).map jobKey)
        · rw [hperm1.length_eq, insertJob_maxElems, eraseJob_maxElems]
          simp only [List.length_cons, List.length_append, List.length_singleton]
          rw [List.length_erase_of_mem hwmem]
          have hpos : 0 < q.jobs.length := List.length_pos.mpr (List.ne_nil_of_mem hwmem)
          omega
        · intro x hx y hy hnx
          have hxmem := hperm1.mem_iff.mp hx
          rcases List.mem_append.mp hy with hyP | hyj
          · by_cases hyjobs : y ∈ q.jobs
            · have hyw : y = w := by
                by_contra hne
                have hym : y ∈ q.jobs.erase w := (List.mem_erase_of_ne hne).mpr hyjobs
                exact hnx (hperm1.mem_iff.mpr (List.mem_cons_of_mem j hym))
              rw [hyw]
              rcases List.mem_cons.mp hxmem with rfl | hx'
              · exact hjw
              · have hxjobs := List.mem_of_mem_erase hx'
                have hxnw : x ≠ w := by
                  intro hcontra
                  subst hcontra
                  exact (hjobs_nodup.mem_erase_iff.mp hx').1 rfl
                have hkne : jobKey x ≠ jobKey w := fun hk =>
                  hxnw (List.inj_on_of_nodup_map hnd hxjobs hwmem hk)
                exact key_trans_lt (hwmax x hxjobs) (keyLtB_irrefl _) hkne
            · have hwy : keyLtB (jobKey w) (jobKey y) = true := hlow w hwmem y hyP hyjobs
              rcases List.mem_cons.mp hxmem with rfl | hx'
              · exact keyLtB_trans hjw hwy
              · exact hlow x (List.mem_of_mem_erase hx') y hyP hyjobs
          · have hyj' : y = j := List.mem_singleton.mp hyj
            refine absurd (hperm1.mem_iff.mpr ?_) hnx
            rw [hyj']
            exact List.mem_cons_self j _
      · next hjw =>
        have hjwf : keyLtB (jobKey j) (jobKey w) = false := by
          cases h : keyLtB (jobKey j) (jobKey w)
          · rfl
          · exact absurd h hjw
        refine ⟨fun x hx => List.mem_append_left _ (hsub x hx), hnd, ?_, ?_⟩
        · simp only [List.length_append, List.length_singleton]
          omega
        · intro x hx y hy hnx
          rcases List.mem_append.mp hy with hyP | hyj
          · exact hlow x hx y hyP hnx
          · have hyj' : y = j := List.mem_singleton.mp hyj
            rw [hyj']
            have hkne : jobKey x ≠ jobKey j := by
              intro hk
              exact hfresh (hk ▸ map_jobKey_subset hsub _ (List.mem_map_of_mem _ hx))
            exact key_trans_lt (hwmax x hx) hjwf hkne


theorem pushBatch_inv :
    ∀ (js P : List Job) (q : Queue) (now : Int),
      ((P ++ js).map jobKey).Nodup →
      PushedInv P q →
      PushedInv (P ++ js) (pushBatch q js now) := by
  intro js
  induction js with
  | nil =>
    intro P q now _ h
    simpa [pushBatch] using h
  | cons j js ih =>
    intro P q now hnd hinv
    have hfresh : jobKey j ∉ P.map jobKey := by
      intro hmem
      rw [List.map_append] at hnd
      exact (List.disjoint_of_nodup_append hnd) hmem
        (by simp)
    have hstep := push_step_inv q P j now hfresh hinv
    have hnd' : (((P ++ [j]) ++ js).map jobKey).Nodup := by
      rw [List.append_assoc]
      simpa using hnd
    have h2 := ih (P ++ [j]) (push q j now) now hnd' hstep
    rw [List.append_assoc] at h2
    simpa [pushBatch, List.foldl_cons] using h2

theorem pushBatch_maxElems (js : List Job) (q : Queue) (now : Int) :
    (pushBatch q js now).maxElems = q.maxElems := by
  induction js generalizing q with
  | nil => rfl
  | cons j js ih =>
    rw [pushBatch, List.foldl_cons]
    rw [show List.foldl (fun q j => push q j now) (push q j now) js
        = pushBatch (push q j now) js now from rfl]
    rw [ih (push q j now), push_maxElems]

theorem pushBatch_retryAfter (js : List Job) (q : Queue) (now : Int) :
    (pushBatch q js now).retryAfter = q.retryAfter := by
  induction js generalizing q with
  | nil => rfl
  | cons j js ih =>
    rw [pushBatch, List.foldl_cons]
    rw [show List.foldl (fun q j => push q j now) (push q j now) js
        = pushBatch (push q j now) js now from rfl]
    rw [ih (push q j now), push_retryAfter]

theorem push_totalLen_le (q : Queue) (j : Job) (now : Int)
    (hle : q.totalLen ≤ q.maxElems) :
    (push q j now).totalLen ≤ q.maxElems := by
  rw [push]
  split
  · next hlt =>
    rw [insertJob_totalLen]
    omega
  · next hge =>
    split
    · exact hle
    · next w heq =>
      split
      · have hmem := worstOf?_mem heq
        rw [insertJob_totalLen, totalLen_eq_jobs_length, eraseJob_jobs,
          List.length_erase_of_mem hmem]
        rw [totalLen_eq_jobs_length] at hle
        have hpos : 0 < q.jobs.length := List.length_pos.mpr (List.ne_nil_of_mem hmem)
        omega
      · exact hle

theorem pushBatch_totalLen_le (js : List Job) (q : Queue) (now : Int)
    (hle : q.totalLen ≤ q.maxElems) :
    (pushBatch q js now).totalLen ≤ q.maxElems := by
  induction js generalizing q with
  | nil => exact hle
  | cons j js ih =>
    rw [pushBatch, List.foldl_cons]
    rw [show List.foldl (fun q j => push q j now) (push q j now) js
        = pushBatch (push q j now) js now from rfl]
    have h1 := push_totalLen_le q j now hle
    rw [← push_maxElems q j now] at h1 ⊢
    exact ih (push q j now) h1

theorem popQ_state (q : Queue) (now : Int) :
    (popQ q now).2.totalLen ≤ q.totalLen ∧
    (popQ q now).2.maxElems = q.maxElems ∧
    (popQ q now).2.retryAfter = q.retryAfter := by
  rcases h : popQ q now with ⟨r, q'⟩
  cases r with
  | none =>
    obtain ⟨_, h2⟩ := popQ_none q now q' h
    subst h2
    rw [promote_totalLen]
    exact ⟨le_refl _, rfl, rfl⟩
  | some j =>
    obtain ⟨hmem, _, h2⟩ := popQ_some q now j q' h
    subst h2
    refine ⟨?_, rfl, rfl⟩
    show ((promote q now).repairH.erase j).length + (promote q now).retryH.length
      ≤ q.totalLen
    rw [← promote_totalLen q now]
    have := List.length_erase_of_mem hmem
    have hpos : 0 < (promote q now).repairH.length :=
      List.length_pos.mpr (List.ne_nil_of_mem hmem)
    show _ ≤ (promote q now).repairH.length + (promote q now).retryH.length
    omega

theorem clean_totalLen_le (q : Queue) (b : Int) : (clean q b).totalLen ≤ q.totalLen := by
  show (q.repairH.filter _).length + (q.retryH.filter _).length ≤ _
  have h1 := List.length_filter_le (fun j => !(decide (j.updatedAt < b))) q.repairH
  have h2 := List.length_filter_le (fun j => !(decide (j.updatedAt < b))) q.retryH
  rw [Queue.totalLen]
  omega

theorem trim_totalLen_le (q : Queue) (h : Int) : (trim q h).totalLen ≤ q.totalLen := by
  show (q.repairH.filter _).length + (q.retryH.filter _).length ≤ _
  have h1 := List.length_filter_le (fun j => !(decide (h < j.health))) q.repairH
  have h2 := List.length_filter_le (fun j => !(decide (h < j.health))) q.retryH
  rw [Queue.totalLen]
  omega

theorem applyOp_state (q : Queue) (o : TimedOp)
    (hle : q.totalLen ≤ q.maxElems) :
    (applyOp q o).1.totalLen ≤ (applyOp q o).1.maxElems ∧
    (applyOp q o).1.maxElems = q.maxElems ∧
    (applyOp q o).1.retryAfter = q.retryAfter := by
  rcases o with ⟨op, t⟩
  cases op with
  | push j =>
    refine ⟨?_, push_maxElems q j t, push_retryAfter q j t⟩
    show (push q j t).totalLen ≤ (push q j t).maxElems
    rw [push_maxElems]
    exact push_totalLen_le q j t hle
  | pushBatch js =>
    refine ⟨?_, pushBatch_maxElems js q t, pushBatch_retryAfter js q t⟩
    show (pushBatch q js t).totalLen ≤ (pushBatch q js t).maxElems
    rw [pushBatch_maxElems]
    exact pushBatch_totalLen_le js q t hle
  | pop =>
    obtain ⟨h1, h2, h3⟩ := popQ_state q t
    exact ⟨by rw [show (applyOp q ⟨QOp.pop, t⟩).1 = (popQ q t).2 from rfl, h2]; omega,
      h2, h3⟩
  | clean b =>
    refine ⟨?_, rfl, rfl⟩
    have := clean_totalLen_le q b
    show (clean q b).totalLen ≤ (clean q b).maxElems
    have hm : (clean q b).maxElems = q.maxElems := rfl
    omega
  | trim hh =>
    refine ⟨?_, rfl, rfl⟩
    have := trim_totalLen_le q hh
    show (trim q hh).totalLen ≤ (trim q hh).maxElems
    have hm : (trim q hh).maxElems = q.maxElems := rfl
    omega

theorem runOps_totalLen_le (ops : List TimedOp) (q : Queue)
    (hle : q.totalLen ≤ q.maxElems) :
    (runOps q ops).totalLen ≤ q.maxElems ∧ (runOps q ops).maxElems = q.maxElems := by
  induction ops generalizing q with
  | nil => exact ⟨hle, rfl⟩
  | cons o os ih =>
    obtain ⟨h1, h2, _⟩ := applyOp_state q o hle
    rw [runOps]
    obtain ⟨ih1, ih2⟩ := ih (applyOp q o).1 (by rw [h2] at h1; rw [h2]; exact h1)
    rw [h2] at ih1 ih2
    exact ⟨ih1, ih2⟩


/-- **C5.** For every placement queue, after any sequence of
Push/PushBatch/Pop/Clean/Trim operations the total
`len(repair heap) + len(retry heap)` is at most the element capacity; and
pushing `N > C` jobs with pairwise distinct priority keys into an empty queue
of capacity `C` leaves exactly `C` jobs, each of which has a strictly smaller
`(segment_health, inserted_at)` key — strictly lower health, ties broken so
that the older `inserted_at` is retained — than every dropped job (the
evicted element may be the job being pushed, in which case that Push is a
no-op). -/
theorem queue_capacity_eviction :
    (∀ (q0 : Queue) (ops : List TimedOp),
        q0.totalLen ≤ q0.maxElems →
        (runOps q0 ops).totalLen ≤ q0.maxElems) ∧
    (∀ (C : Nat) (ra now : Int) (js : List Job),
        (js.map jobKey).Nodup → C < js.length →
        (pushBatch (emptyQ C ra) js now).jobs.length = C ∧
        (∀ x ∈ (pushBatch (emptyQ C ra) js now).jobs, x ∈ js) ∧
        (∀ x ∈ (pushBatch (emptyQ C ra) js now).jobs, ∀ y ∈ js,
            y ∉ (pushBatch (emptyQ C ra) js now).jobs →
            keyLtB (jobKey x) (jobKey y) = true)) := by
  constructor
  · intro q0 ops h
    exact (runOps_totalLen_le ops q0 h).1
  · intro C ra now js hnd hcl
    have hinv0 : PushedInv [] (emptyQ C ra) := by
      refine ⟨?_, ?_, ?_, ?_⟩
      · intro x hx
        simp [emptyQ, Queue.jobs] at hx
      · simp [emptyQ, Queue.jobs]
      · simp [emptyQ, Queue.jobs]
      · intro x hx
        simp [emptyQ, Queue.jobs] at hx
    have h := pushBatch_inv js [] (emptyQ C ra) now (by simpa using hnd) hinv0
    obtain ⟨hsub, hnodup, hlen', hlow⟩ := h
    have hmax : (pushBatch (emptyQ C ra) js now).maxElems = C := by
      rw [pushBatch_maxElems]
      rfl
    rw [hmax] at hlen'
    simp only [List.nil_append] at hsub hlen' hlow
    refine ⟨?_, ?_, ?_⟩
    · rw [hlen']
      omega
    · exact hsub
    · exact hlow

/-- Witness for C5: pushing three jobs with healths 3, 1, 2 into an empty
queue of capacity 2 leaves exactly two jobs. -/
theorem queue_capacity_eviction_witness :
    (([jobA, jobB, jobC].map jobKey).Nodup) ∧ 2 < [jobA, jobB, jobC].length ∧
    (pushBatch (emptyQ 2 5) [jobA, jobB, jobC] 0).jobs.length = 2 := by
  refine ⟨by decide, by decide, ?_⟩
  exact (queue_capacity_eviction.2 2 5 0 [jobA, jobB, jobC] (by decide) (by decide)).1


theorem eligAt_mono {q : Queue} {T T' : Int} (h : EligAt q T) (hle : T ≤ T') :
    EligAt q T' :=
  fun j hj la hla => le_trans (h j hj la hla) hle

theorem eligAt_congr {q q' : Queue} (hra : q'.retryAfter = q.retryAfter)
    (hsub : ∀ j ∈ q'.repairH, j ∈ q.repairH) {T : Int} (h : EligAt q T) :
    EligAt q' T := by
  intro j hj la hla
  rw [hra]
  exact h j (hsub j hj) la hla

theorem goesToRetry_false {q : Queue} {j : Job} {t la : Int}
    (h : goesToRetry q j t = false) (hla : j.lastAttemptedAt = some la) :
    la + q.retryAfter ≤ t := by
  rw [goesToRetry, hla] at h
  simp at h
  omega

theorem eligAt_insertJob {q : Queue} {j : Job} {t : Int} (h : EligAt q t) :
    EligAt (insertJob q j t) t := by
  intro x hx la hla
  rw [insertJob] at hx
  rw [insertJob_retryAfter]
  by_cases hg : goesToRetry q j t = true
  · rw [if_pos hg] at hx
    exact h x hx la hla
  · have hg' : goesToRetry q j t = false := by
      cases hgg : goesToRetry q j t
      · rfl
      · exact absurd hgg hg
    rw [if_neg hg] at hx
    rcases List.mem_append.mp hx with hx' | hx'
    · exact h x hx' la hla
    · have hxj : x = j := List.mem_singleton.mp hx'
      subst hxj
      exact goesToRetry_false hg' hla

theorem eraseJob_repairH_subset (q : Queue) (w : Job) :
    ∀ x ∈ (eraseJob q w).repairH, x ∈ q.repairH := by
  rw [eraseJob]
  split
  · intro x hx
    exact List.mem_of_mem_erase hx
  · intro x hx
    exact hx

theorem eligAt_push {q : Queue} {j : Job} {t : Int} (h : EligAt q t) :
    EligAt (push q j t) t := by
  rw [push]
  split
  · exact eligAt_insertJob h
  · split
    · exact h
    · split
      · exact eligAt_insertJob
          (eligAt_congr (eraseJob_retryAfter _ _) (eraseJob_repairH_subset _ _) h)
      · exact h

theorem eligAt_pushBatch {js : List Job} {q : Queue} {t : Int} (h : EligAt q t) :
    EligAt (pushBatch q js t) t := by
  induction js generalizing q with
  | nil => exact h
  | cons j js ih =>
    rw [pushBatch, List.foldl_cons]
    exact ih (eligAt_push h)

theorem eligAt_promote {q : Queue} {t : Int} (h : EligAt q t) :
    EligAt (promote q t) t := by
  intro x hx la hla
  rw [promote_retryAfter]
  rw [promote_repairH] at hx
  rcases List.mem_append.mp hx with hx' | hx'
  · exact h x hx' la hla
  · have helig := (List.mem_filter.mp hx').2
    rw [eligible, hla] at helig
    exact of_decide_eq_true helig

theorem eligAt_popQ {q : Queue} {t : Int} (h : EligAt q t) :
    EligAt (popQ q t).2 t := by
  rcases hp : popQ q t with ⟨r, q'⟩
  show EligAt q' t
  cases r with
  | none =>
    obtain ⟨_, h2⟩ := popQ_none q t q' hp
    subst h2
    exact eligAt_promote h
  | some j =>
    obtain ⟨_, _, h2⟩ := popQ_some q t j q' hp
    refine eligAt_congr ?_ ?_ (eligAt_promote h)
    · rw [h2]
    · intro x hx
      rw [h2] at hx
      exact List.mem_of_mem_erase hx

theorem eligAt_clean {q : Queue} {b : Int} {T : Int} (h : EligAt q T) :
    EligAt (clean q b) T := by
  refine eligAt_congr ?_ ?_ h
  · rfl
  · intro x hx
    exact (List.mem_filter.mp hx).1

theorem eligAt_trim {q : Queue} {hh : Int} {T : Int} (h : EligAt q T) :
    EligAt (trim q hh) T := by
  refine eligAt_congr ?_ ?_ h
  · rfl
  · intro x hx
    exact (List.mem_filter.mp hx).1

theorem eligAt_applyOp {q : Queue} {o : TimedOp} (h : EligAt q o.t) :
    EligAt (applyOp q o).1 o.t := by
  rcases o with ⟨op, t⟩
  cases op with
  | push j => exact eligAt_push h
  | pushBatch js => exact eligAt_pushBatch h
  | pop => exact eligAt_popQ h
  | clean b => exact eligAt_clean h
  | trim hh => exact eligAt_trim h

theorem applyOp_retryAfter (q : Queue) (o : TimedOp) :
    (applyOp q o).1.retryAfter = q.retryAfter := by
  rcases o with ⟨op, t⟩
  cases op with
  | push j => exact push_retryAfter q j t
  | pushBatch js => exact pushBatch_retryAfter js q t
  | pop => exact (popQ_state q t).2.2
  | clean b => rfl
  | trim hh => rfl

theorem popQ_returned_eligible {q : Queue} {t : Int} {j : Job} {q' : Queue} {la : Int}
    (h : EligAt q t) (hp : popQ q t = (some j, q'))
    (hla : j.lastAttemptedAt = some la) :
    la + q.retryAfter ≤ t := by
  obtain ⟨hmem, _, _⟩ := popQ_some q t j q' hp
  have h2 := eligAt_promote h
  have h3 := h2 j hmem la hla
  rwa [promote_retryAfter] at h3

/-- **C6.** A job pushed with `last_attempted_at` set and
`now − last_attempted_at < retry_after` enters the retry heap (first
conjunct); `Pop` promotes such a job into the repair heap only once
`last_attempted_at + retry_after ≤ now` (second conjunct); and along any
time-monotone operation sequence starting from a queue whose repair heap is
already eligible, no `Pop` returns a job with a recorded attempt before
`last_attempted_at + retry_after ≤ now` (third conjunct). -/
theorem retry_gating :
    (∀ (q : Queue) (j : Job) (t la : Int),
        j.lastAttemptedAt = some la → t - la < q.retryAfter →
        q.totalLen < q.maxElems → j ∈ (push q j t).retryH) ∧
    (∀ (q : Queue) (t : Int) (j : Job) (la : Int),
        j ∈ (promote q t).repairH → j ∉ q.repairH →
        j.lastAttemptedAt = some la → la + q.retryAfter ≤ t) ∧
    (∀ (q0 : Queue) (T0 : Int) (ops : List TimedOp),
        EligAt q0 T0 → List.Chain' (· ≤ ·) (T0 :: ops.map TimedOp.t) →
        ∀ (i : Nat) (o : TimedOp) (j : Job) (la : Int),
          ops.get? i = some o → opResult q0 ops i = some j →
          j.lastAttemptedAt = some la →
          la + q0.retryAfter ≤ o.t) := by
  refine ⟨?_, ?_, ?_⟩
  · intro q j t la hla hrecent hfull
    rw [push, if_pos hfull, insertJob]
    have hg : goesToRetry q j t = true := by
      rw [goesToRetry, hla]
      exact decide_eq_true hrecent
    rw [if_pos hg]
    show j ∈ q.retryH ++ [j]
    exact List.mem_append_right _ (List.mem_singleton.mpr rfl)
  · intro q t j la hmem hnot hla
    rw [promote_repairH] at hmem
    rcases List.mem_append.mp hmem with hx | hx
    · exact absurd hx hnot
    · have helig := (List.mem_filter.mp hx).2
      rw [eligible, hla] at helig
      exact of_decide_eq_true helig
  · intro q0 T0 ops hE hchain i
    induction ops generalizing q0 T0 i with
    | nil =>
      intro o j la hget
      simp at hget
    | cons o os ih =>
      intro o' j la hget hres hla
      have hchain1 : T0 ≤ o.t ∧ List.Chain' (· ≤ ·) (o.t :: os.map TimedOp.t) := by
        rw [List.map_cons, List.chain'_cons] at hchain
        exact hchain
      have hE' : EligAt q0 o.t := eligAt_mono hE hchain1.1
      cases i with
      | zero =>
        simp only [List.get?] at hget
        injection hget with hget
        subst hget
        have hres0 : (applyOp q0 o).2 = some j := hres
        rcases o with ⟨op, t⟩
        cases op with
        | push jj => exact absurd hres0 (by simp [applyOp])
        | pushBatch js => exact absurd hres0 (by simp [applyOp])
        | clean b => exact absurd hres0 (by simp [applyOp])
        | trim hh => exact absurd hres0 (by simp [applyOp])
        | pop =>
          have hp : popQ q0 t = (some j, (popQ q0 t).2) := by
            have heta : popQ q0 t = ((popQ q0 t).1, (popQ q0 t).2) := rfl
            rw [heta]
            rw [show (popQ q0 t).1 = some j from hres0]
          exact popQ_returned_eligible hE' hp hla
      | succ i =>
        have hres' : opResult (applyOp q0 o).1 os i = some j := hres
        have hget' : os.get? i = some o' := hget
        have hE2 : EligAt (applyOp q0 o).1 o.t := eligAt_applyOp hE'
        have := ih (applyOp q0 o).1 o.t hE2 hchain1.2 i o' j la hget' hres' hla
        rwa [applyOp_retryAfter] at this

/-- Witness for C6: a job last attempted at time 0, pushed at time 0 into a
queue with `retry_after = 5`, is returned by the pop at time 6 and indeed
`0 + 5 ≤ 6`. -/
theorem retry_gating_witness :
    EligAt (emptyQ 10 5) 0 ∧
    List.Chain' (· ≤ ·) (0 :: opsR.map TimedOp.t) ∧
    opsR.get? 2 = some { op := QOp.pop, t := 6 } ∧
    opResult (emptyQ 10 5) opsR 2 = some jobR ∧
    jobR.lastAttemptedAt = some 0 ∧
    (0 : Int) + (emptyQ 10 5).retryAfter ≤ 6 := by
  have hE : EligAt (emptyQ 10 5) 0 := by
    intro j hj
    simp [emptyQ] at hj
  have hch : List.Chain' (· ≤ ·) (0 :: opsR.map TimedOp.t) := by
    norm_num [opsR, List.chain'_cons]
  refine ⟨hE, hch, by decide, by decide, by decide, ?_⟩
  exact retry_gating.2.2 (emptyQ 10 5) 0 opsR hE hch 2
    { op := QOp.pop, t := 6 } jobR 0 (by decide) (by decide) (by decide)

end Jobqueue


namespace Piecestore

theorem deserializeHeader_serializeHeader (h : PieceHeader) :
    deserializeHeader (serializeHeader h) = some h := by
  rcases h with ⟨alg, hash, pid⟩
  cases pid with
  | none =>
    simp only [serializeHeader, List.cons_append]
    rw [deserializeHeader]
    rw [if_pos (by simp)]
    rw [List.drop_left, List.take_left]
  | some pid =>
    simp only [serializeHeader, List.cons_append]
    rw [deserializeHeader]
    rw [if_pos (by simp)]
    rw [List.drop_left, List.take_left]
    simp

theorem deserializeHeader_complete {bs : List Nat} {h : PieceHeader}
    (hd : deserializeHeader bs = some h) : bs = serializeHeader h := by
  cases bs with
  | nil => exact absurd hd (by simp [deserializeHeader])
  | cons alg rest0 =>
    cases rest0 with
    | nil => exact absurd hd (by simp [deserializeHeader])
    | cons hlen rest =>
      rw [deserializeHeader] at hd
      by_cases hle : hlen ≤ rest.length
      · rw [if_pos hle] at hd
        have hlen_take : (rest.take hlen).length = hlen := by
          rw [List.length_take]
          omega
        split at hd
        · next heq =>
          injection hd with hd
          subst hd
          simp only [serializeHeader, List.cons_append]
          have hrest : rest = rest.take hlen ++ [0] := by
            conv_lhs => rw [← List.take_append_drop hlen rest]
            rw [heq]
          rw [hlen_take, ← hrest]
        · next plen rest2 heq =>
          split at hd
          · next hpl =>
            injection hd with hd
            subst hd
            simp only [serializeHeader, List.cons_append]
            have hrest : rest = rest.take hlen ++ 1 :: rest2.length :: rest2 := by
              conv_lhs => rw [← List.take_append_drop hlen rest]
              rw [heq, hpl]
            rw [hlen_take, ← hrest]
          · exact absurd hd (by simp)
        · exact absurd hd (by simp)
      · rw [if_neg hle] at hd
        exact absurd hd (by simp)

theorem extractPiece_encodePiece (h : PieceHeader) (data : List Nat) :
    extractPiece (encodePiece h data) = some (h, data) := by
  rw [encodePiece, extractPiece]
  rw [List.getLast?_concat]
  simp only [List.dropLast_concat]
  rw [if_pos (by simp)]
  have hsub : (data ++ serializeHeader h).length - (serializeHeader h).length
      = data.length := by simp
  rw [hsub, List.drop_left, List.take_left, deserializeHeader_serializeHeader]

theorem eq_dropLast_concat_of_getLast? {l : List Nat} {a : Nat}
    (h : l.getLast? = some a) : l = l.dropLast ++ [a] := by
  induction l using List.reverseRecOn with
  | nil => exact absurd h (by simp)
  | append_singleton bs b _ =>
    rw [List.getLast?_concat] at h
    injection h with h
    rw [List.dropLast_concat, h]

theorem pieceValid_sound {hashFn : Nat → List Nat → List Nat} {k b : List Nat}
    (hv : pieceValid hashFn k b = true) :
    ∃ h data, b = encodePiece h data ∧
      hashFn h.hashAlgorithm data = h.hash ∧ pieceIdOk h k = true := by
  rw [pieceValid] at hv
  split at hv
  · next h data heq =>
    rw [Bool.and_eq_true, decide_eq_true_eq] at hv
    refine ⟨h, data, ?_, hv.1, hv.2⟩
    rw [extractPiece] at heq
    split at heq
    · exact absurd heq (by simp)
    · next len hlast =>
      split at heq
      · next hle =>
        split at heq
        · next h' hdes =>
          injection heq with heq
          rw [Prod.mk.injEq] at heq
          have hser := deserializeHeader_complete hdes
          have hdroplen : (b.dropLast.drop (b.dropLast.length - len)).length = len := by
            rw [List.length_drop]
            omega
          have hlen_eq : (serializeHeader h').length = len := by
            rw [← hser]
            exact hdroplen
          have hdecomp := eq_dropLast_concat_of_getLast? hlast
          rw [← heq.1, ← heq.2, encodePiece]
          calc b = b.dropLast ++ [len] := hdecomp
            _ = (b.dropLast.take (b.dropLast.length - len) ++
                  b.dropLast.drop (b.dropLast.length - len)) ++ [len] := by
                rw [List.take_append_drop]
            _ = b.dropLast.take (b.dropLast.length - len) ++ serializeHeader h'
                  ++ [(serializeHeader h').length] := by
                rw [hser, hlen_eq]
        · exact absurd heq (by simp)
      · exact absurd heq (by simp)
  · exact absurd hv (by simp)

theorem flipAt_ne {d : List Nat} {i : Nat} (hi : i < d.length) : flipAt i d ≠ d := by
  intro hcontra
  have h1 : (flipAt i d).getD i 0 = d.getD i 0 := by rw [hcontra]
  rw [flipAt] at h1
  rw [List.getD_eq_getElem _ _ (by simpa using hi)] at h1
  rw [List.getElem_set_self] at h1
  rw [List.getD_eq_getElem _ _ hi] at h1
  rw [flipByte] at h1
  omega

theorem flipAt_encodePiece {h : PieceHeader} {data : List Nat} {i : Nat}
    (hi : i < data.length) :
    flipAt i (encodePiece h data) = encodePiece h (flipAt i data) := by
  have h1 : i < (data ++ serializeHeader h).length := by
    rw [List.length_append]
    omega
  rw [flipAt, flipAt, encodePiece, encodePiece]
  rw [List.getD_append _ _ _ _ h1]
  rw [List.getD_append _ _ _ _ hi]
  rw [List.set_append_left _ _ h1]
  rw [List.set_append_left _ _ hi]

end Piecestore


namespace Piecestore

/-- **C2 (counterexample).** The truncation half of the claim fails as
universally stated: a valid piece stays valid when it is re-wrapped as the
data portion of a longer piece for the same id, so truncating the longer
piece back to the embedded piece yields an accepted prefix.  `cexOuter` is
accepted for id `[5]`, and its truncation to `cexInner.length < cexOuter.length`
bytes is accepted as well. -/
theorem pieceValid_truncation_counterexample :
    pieceValid sumHash [5] cexOuter = true ∧
    cexInner.length < cexOuter.length ∧
    cexOuter.take cexInner.length = cexInner ∧
    pieceValid sumHash [5] (cexOuter.take cexInner.length) = true := by
  decide

/-- **C2 (amended).** For every accepted piece `data ++ header`: flipping any
single byte of the data portion is rejected, provided the hash function maps
no single-byte flip to the same digest (the collision-freeness that the
BLAKE3 of the code is trusted for); and a prefix-truncation is accepted only
when the truncated prefix is itself a complete well-formed piece — data
followed by an encoded header whose declared hash matches that data and
whose piece id matches `k`. -/
theorem pieceValid_tamper (hashFn : Nat → List Nat → List Nat) (k : List Nat)
    (h : PieceHeader) (data : List Nat)
    (hnc : ∀ alg d i, i < d.length → hashFn alg (flipAt i d) ≠ hashFn alg d)
    (hvalid : pieceValid hashFn k (encodePiece h data) = true) :
    (∀ i < data.length,
        pieceValid hashFn k (flipAt i (encodePiece h data)) = false) ∧
    (∀ n < (encodePiece h data).length,
        pieceValid hashFn k ((encodePiece h data).take n) = true →
        ∃ h' data', (encodePiece h data).take n = encodePiece h' data' ∧
          hashFn h'.hashAlgorithm data' = h'.hash ∧ pieceIdOk h' k = true) := by
  constructor
  · intro i hi
    have hmatch : hashFn h.hashAlgorithm data = h.hash := by
      rw [pieceValid, extractPiece_encodePiece] at hvalid
      rw [Bool.and_eq_true, decide_eq_true_eq] at hvalid
      exact hvalid.1
    have hne : hashFn h.hashAlgorithm (flipAt i data) ≠ h.hash := by
      rw [← hmatch]
      exact hnc h.hashAlgorithm data i hi
    rw [flipAt_encodePiece hi, pieceValid, extractPiece_encodePiece]
    show (decide (hashFn h.hashAlgorithm (flipAt i data) = h.hash)
      && pieceIdOk h k) = false
    rw [decide_eq_false hne, Bool.false_and]
  · intro n _ hv
    exact pieceValid_sound hv

/-- Witness for the amended C2 theorem: a concrete piece under the identity
hash; every single-byte flip of the data portion is rejected. -/
theorem pieceValid_tamper_witness :
    pieceValid idHash [5] (encodePiece headerW dataW) = true ∧
    (∀ i < dataW.length,
        pieceValid idHash [5] (flipAt i (encodePiece headerW dataW)) = false) := by
  refine ⟨by decide, ?_⟩
  exact (pieceValid_tamper idHash [5] headerW dataW
    (fun alg d i hi => flipAt_ne hi) (by decide)).1

end Piecestore

open Hashstore in
/-- **C7.** For every store, `FreeRequired` equals
`(2 + RewriteMultiple) × TableSize`, and for every namespace the DB-level
`Reserved` advertised by `SpaceUsage` equals
`max(FreeRequired(s0), FreeRequired(s1))` while `UsedForMetadata` equals
`TableSize(s0) + TableSize(s1)`. -/
theorem spaceUsage_reserved_freeRequired (db : Hashstore.DB) (u : ℚ) :
    (∀ s : Hashstore.Store,
      s.freeRequired = (2 + s.config.rewriteMultiple) * s.table.tableSize) ∧
    (db.spaceUsage u).reserved = max db.s0.freeRequired db.s1.freeRequired ∧
    (db.spaceUsage u).usedForMetadata =
      db.s0.table.tableSize + db.s1.table.tableSize := by
  refine ⟨fun s => rfl, rfl, rfl⟩

end StorjSpec

namespace StorjSpec.Kofn

theorem countW_update (n : Nat) (st : Nat → WStatus) (i : Nat) (hi : i < n)
    (v : WStatus) (G : Nat → WStatus → Nat) :
    countW n (Function.update st i v) G + G i (st i) = countW n st G + G i v := by
  have hmem : i ∈ Finset.range n := Finset.mem_range.mpr hi
  have h1 : countW n (Function.update st i v) G
      = G i v + ∑ j in (Finset.range n).erase i, G j (st j) := by
    rw [countW, ← Finset.add_sum_erase _ (fun j => G j (Function.update st i v j)) hmem]
    congr 1
    · rw [Function.update_same]
    · refine Finset.sum_congr rfl (fun j hj => ?_)
      rw [Function.update_noteq (Finset.ne_of_mem_erase hj)]
  have h2 : countW n st G = G i (st i) + ∑ j in (Finset.range n).erase i, G j (st j) := by
    rw [countW, ← Finset.add_sum_erase _ (fun j => G j (st j)) hmem]
  omega

theorem countW_single_le (n : Nat) (st : Nat → WStatus) (G : Nat → WStatus → Nat)
    (i : Nat) (hi : i < n) : G i (st i) ≤ countW n st G := by
  rw [countW]
  exact @Finset.single_le_sum _ _ _ (fun j => G j (st j)) (Finset.range n)
    (fun j _ => Nat.zero_le _) i (Finset.mem_range.mpr hi)


theorem countW_update_val (n : Nat) (st : Nat → WStatus) (i : Nat) (hi : i < n)
    (u v : WStatus) (hst : st i = u) (G : Nat → WStatus → Nat) :
    countW n (Function.update st i v) G + G i u = countW n st G + G i v := by
  have h := countW_update n st i hi v G
  rw [hst] at h
  exact h

theorem countW_update_skip (n : Nat) (skip : Nat → Bool) (st : Nat → WStatus)
    (i : Nat) (hi : i < n) (u v : WStatus) (hst : st i = u) (hsk : skip i = false) :
    countW n (Function.update st i v)
        (fun j w => if skip j then 0 else unclaimedWeight w) + unclaimedWeight u
      = countW n st (fun j w => if skip j then 0 else unclaimedWeight w)
        + unclaimedWeight v := by
  have h := countW_update n st i hi v (fun j w => if skip j then 0 else unclaimedWeight w)
  rw [hst, hsk] at h
  simpa using h

theorem countW_skip_single (n : Nat) (skip : Nat → Bool) (st : Nat → WStatus)
    (i : Nat) (hi : i < n) (u : WStatus) (hst : st i = u) (hsk : skip i = false) :
    unclaimedWeight u
      ≤ countW n st (fun j w => if skip j then 0 else unclaimedWeight w) := by
  have h := countW_single_le n st (fun j w => if skip j then 0 else unclaimedWeight w) i hi
  have h' : (if skip i = true then 0 else unclaimedWeight (st i))
      ≤ countW n st (fun j w => if skip j then 0 else unclaimedWeight w) := h
  rw [hst, hsk] at h'
  simpa using h'

theorem countW_doing_single (n : Nat) (st : Nat → WStatus) (i : Nat) (hi : i < n)
    (hst : st i = .doing) : 1 ≤ countW n st (fun _ w => doingWeight w) := by
  have h := countW_single_le n st (fun _ w => doingWeight w) i hi
  have h' : doingWeight (st i) ≤ countW n st (fun _ w => doingWeight w) := h
  rw [hst] at h'
  exact h'

theorem step_inv {n : Nat} {skip : Nat → Bool} {cfg : KCfg} {s : KState}
    {l : KLabel} {s' : KState} (hstep : Step n skip cfg s l s')
    (hinv : KInv n skip cfg s) : KInv n skip cfg s' := by
  obtain ⟨hskipIdle, hact, hrun, hpend, hout⟩ := hinv
  cases hstep with
  | start i hi hskip hst hlim =>
    have hd : countW n (Function.update s.status i WStatus.looping)
          (fun _ w => doingWeight w) + 0
        = countW n s.status (fun _ w => doingWeight w) + 0 :=
      countW_update_val n s.status i hi _ _ hst _
    have hr : countW n (Function.update s.status i WStatus.looping)
          (fun _ w => runningWeight w) + 0
        = countW n s.status (fun _ w => runningWeight w) + 1 :=
      countW_update_val n s.status i hi _ _ hst _
    have hu : countW n (Function.update s.status i WStatus.looping)
          (fun j w => if skip j then 0 else unclaimedWeight w) + 1
        = countW n s.status (fun j w => if skip j then 0 else unclaimedWeight w) + 1 :=
      countW_update_skip n skip s.status i hi _ _ hst hskip
    refine ⟨?_, ?_, ?_, ?_, ?_⟩
    · intro j hj
      show Function.update s.status i WStatus.looping j = WStatus.idle
      rcases eq_or_ne j i with rfl | hne
      · rw [hj] at hskip
        exact absurd hskip (by decide)
      · rw [Function.update_noteq hne]
        exact hskipIdle j hj
    · show s.active = countW n (Function.update s.status i WStatus.looping)
        (fun _ w => doingWeight w)
      omega
    · show countW n (Function.update s.status i WStatus.looping)
        (fun _ w => runningWeight w) ≤ cfg.limit
      omega
    · show s.pending = countW n (Function.update s.status i WStatus.looping)
        (fun j w => if skip j then 0 else unclaimedWeight w)
      omega
    · rintro ⟨j, hjn, hj⟩
      rcases eq_or_ne j i with rfl | hne
      · have hj' : Function.update s.status j WStatus.looping j = .out false := hj
        rw [Function.update_same] at hj'
        exact absurd hj' (by decide)
      · have hj' : Function.update s.status i WStatus.looping j = .out false := hj
        rw [Function.update_noteq hne] at hj'
        exact hout ⟨j, hjn, hj'⟩
  | exitDone i hi hst hdone =>
    refine ⟨?_, ?_, ?_, ?_, fun _ => Or.inl hdone⟩
    · intro j hj
      show Function.update s.status i (WStatus.out false) j = WStatus.idle
      rcases eq_or_ne j i with rfl | hne
      · rw [hskipIdle j hj] at hst
        exact absurd hst (by decide)
      · rw [Function.update_noteq hne]
        exact hskipIdle j hj
    · have hd : countW n (Function.update s.status i (WStatus.out false))
            (fun _ w => doingWeight w) + 0
          = countW n s.status (fun _ w => doingWeight w) + 0 :=
        countW_update_val n s.status i hi _ _ hst _
      show s.active = countW n (Function.update s.status i (WStatus.out false))
        (fun _ w => doingWeight w)
      omega
    · have hr : countW n (Function.update s.status i (WStatus.out false))
            (fun _ w => runningWeight w) + 1
          = countW n s.status (fun _ w => runningWeight w) + 0 :=
        countW_update_val n s.status i hi _ _ hst _
      show countW n (Function.update s.status i (WStatus.out false))
        (fun _ w => runningWeight w) ≤ cfg.limit
      omega
    · have hsk : skip i = false := by
        cases hcase : skip i with
        | false => rfl
        | true => rw [hskipIdle i hcase] at hst; exact absurd hst (by decide)
      have hu : countW n (Function.update s.status i (WStatus.out false))
            (fun j w => if skip j then 0 else unclaimedWeight w) + 1
          = countW n s.status (fun j w => if skip j then 0 else unclaimedWeight w) + 1 :=
        countW_update_skip n skip s.status i hi _ _ hst hsk
      show s.pending = countW n (Function.update s.status i (WStatus.out false))
        (fun j w => if skip j then 0 else unclaimedWeight w)
      omega
  | exitImp i hi hst himp =>
    refine ⟨?_, ?_, ?_, ?_, fun _ => Or.inr himp⟩
    · intro j hj
      show Function.update s.status i (WStatus.out false) j = WStatus.idle
      rcases eq_or_ne j i with rfl | hne
      · rw [hskipIdle j hj] at hst
        exact absurd hst (by decide)
      · rw [Function.update_noteq hne]
        exact hskipIdle j hj
    · have hd : countW n (Function.update s.status i (WStatus.out false))
            (fun _ w => doingWeight w) + 0
          = countW n s.status (fun _ w => doingWeight w) + 0 :=
        countW_update_val n s.status i hi _ _ hst _
      show s.active = countW n (Function.update s.status i (WStatus.out false))
        (fun _ w => doingWeight w)
      omega
    · have hr : countW n (Function.update s.status i (WStatus.out false))
            (fun _ w => runningWeight w) + 1
          = countW n s.status (fun _ w => runningWeight w) + 0 :=
        countW_update_val n s.status i hi _ _ hst _
      show countW n (Function.update s.status i (WStatus.out false))
        (fun _ w => runningWeight w) ≤ cfg.limit
      omega
    · have hsk : skip i = false := by
        cases hcase : skip i with
        | false => rfl
        | true => rw [hskipIdle i hcase] at hst; exact absurd hst (by decide)
      have hu : countW n (Function.update s.status i (WStatus.out false))
            (fun j w => if skip j then 0 else unclaimedWeight w) + 1
          = countW n s.status (fun j w => if skip j then 0 else unclaimedWeight w) + 1 :=
        countW_update_skip n skip s.status i hi _ _ hst hsk
      show s.pending = countW n (Function.update s.status i (WStatus.out false))
        (fun j w => if skip j then 0 else unclaimedWeight w)
      omega
  | claim i hi hst hnd hni hnw =>
    have hsk : skip i = false := by
      cases hcase : skip i with
      | false => rfl
      | true => rw [hskipIdle i hcase] at hst; exact absurd hst (by decide)
    have hd : countW n (Function.update s.status i WStatus.doing)
          (fun _ w => doingWeight w) + 0
        = countW n s.status (fun _ w => doingWeight w) + 1 :=
      countW_update_val n s.status i hi _ _ hst _
    have hr : countW n (Function.update s.status i WStatus.doing)
          (fun _ w => runningWeight w) + 1
        = countW n s.status (fun _ w => runningWeight w) + 1 :=
      countW_update_val n s.status i hi _ _ hst _
    have hu : countW n (Function.update s.status i WStatus.doing)
          (fun j w => if skip j then 0 else unclaimedWeight w) + 1
        = countW n s.status (fun j w => if skip j then 0 else unclaimedWeight w) + 0 :=
      countW_update_skip n skip s.status i hi _ _ hst hsk
    have hu1 : (1 : Nat)
        ≤ countW n s.status (fun j w => if skip j then 0 else unclaimedWeight w) :=
      countW_skip_single n skip s.status i hi _ hst hsk
    refine ⟨?_, ?_, ?_, ?_, ?_⟩
    · intro j hj
      show Function.update s.status i WStatus.doing j = WStatus.idle
      rcases eq_or_ne j i with rfl | hne
      · rw [hj] at hsk
        exact absurd hsk (by decide)
      · rw [Function.update_noteq hne]
        exact hskipIdle j hj
    · show s.active + 1 = countW n (Function.update s.status i WStatus.doing)
        (fun _ w => doingWeight w)
      omega
    · show countW n (Function.update s.status i WStatus.doing)
        (fun _ w => runningWeight w) ≤ cfg.limit
      omega
    · show s.pending - 1 = countW n (Function.update s.status i WStatus.doing)
        (fun j w => if skip j then 0 else unclaimedWeight w)
      omega
    · rintro ⟨j, hjn, hj⟩
      rcases eq_or_ne j i with rfl | hne
      · have hj' : Function.update s.status j WStatus.doing j = .out false := hj
        rw [Function.update_same] at hj'
        exact absurd hj' (by decide)
      · have hj' : Function.update s.status i WStatus.doing j = .out false := hj
        rw [Function.update_noteq hne] at hj'
        rcases hout ⟨j, hjn, hj'⟩ with hD | hI
        · exact Or.inl hD
        · right
          show s.succ + (s.active + 1) + (s.pending - 1) < cfg.reqS ∨
            s.fail + (s.active + 1) + (s.pending - 1) < cfg.reqF
          omega
  | finishOk i hi hst =>
    have hsk : skip i = false := by
      cases hcase : skip i with
      | false => rfl
      | true => rw [hskipIdle i hcase] at hst; exact absurd hst (by decide)
    have hd : countW n (Function.update s.status i (WStatus.out true))
          (fun _ w => doingWeight w) + 1
        = countW n s.status (fun _ w => doingWeight w) + 0 :=
      countW_update_val n s.status i hi _ _ hst _
    have hr : countW n (Function.update s.status i (WStatus.out true))
          (fun _ w => runningWeight w) + 1
        = countW n s.status (fun _ w => runningWeight w) + 0 :=
      countW_update_val n s.status i hi _ _ hst _
    have hu : countW n (Function.update s.status i (WStatus.out true))
          (fun j w => if skip j then 0 else unclaimedWeight w) + 0
        = countW n s.status (fun j w => if skip j then 0 else unclaimedWeight w) + 0 :=
      countW_update_skip n skip s.status i hi _ _ hst hsk
    have hd1 : 1 ≤ countW n s.status (fun _ w => doingWeight w) :=
      countW_doing_single n s.status i hi hst
    refine ⟨?_, ?_, ?_, ?_, ?_⟩
    · intro j hj
      show Function.update s.status i (WStatus.out true) j = WStatus.idle
      rcases eq_or_ne j i with rfl | hne
      · rw [hj] at hsk
        exact absurd hsk (by decide)
      · rw [Function.update_noteq hne]
        exact hskipIdle j hj
    · show s.active - 1 = countW n (Function.update s.status i (WStatus.out true))
        (fun _ w => doingWeight w)
      omega
    · show countW n (Function.update s.status i (WStatus.out true))
        (fun _ w => runningWeight w) ≤ cfg.limit
      omega
    · show s.pending = countW n (Function.update s.status i (WStatus.out true))
        (fun j w => if skip j then 0 else unclaimedWeight w)
      omega
    · rintro ⟨j, hjn, hj⟩
      rcases eq_or_ne j i with rfl | hne
      · have hj' : Function.update s.status j (WStatus.out true) j = .out false := hj
        rw [Function.update_same] at hj'
        exact absurd hj' (by decide)
      · have hj' : Function.update s.status i (WStatus.out true) j = .out false := hj
        rw [Function.update_noteq hne] at hj'
        rcases hout ⟨j, hjn, hj'⟩ with hD | hI
        · left
          show cfg.reqS ≤ s.succ + 1 ∧ cfg.reqF ≤ s.fail
          omega
        · right
          show s.succ + 1 + (s.active - 1) + s.pending < cfg.reqS ∨
            s.fail + (s.active - 1) + s.pending < cfg.reqF
          omega
  | finishErr i hi hst =>
    have hsk : skip i = false := by
      cases hcase : skip i with
      | false => rfl
      | true => rw [hskipIdle i hcase] at hst; exact absurd hst (by decide)
    have hd : countW n (Function.update s.status i (WStatus.out true))
          (fun _ w => doingWeight w) + 1
        = countW n s.status (fun _ w => doingWeight w) + 0 :=
      countW_update_val n s.status i hi _ _ hst _
    have hr : countW n (Function.update s.status i (WStatus.out true))
          (fun _ w => runningWeight w) + 1
        = countW n s.status (fun _ w => runningWeight w) + 0 :=
      countW_update_val n s.status i hi _ _ hst _
    have hu : countW n (Function.update s.status i (WStatus.out true))
          (fun j w => if skip j then 0 else unclaimedWeight w) + 0
        = countW n s.status (fun j w => if skip j then 0 else unclaimedWeight w) + 0 :=
      countW_update_skip n skip s.status i hi _ _ hst hsk
    have hd1 : 1 ≤ countW n s.status (fun _ w => doingWeight w) :=
      countW_doing_single n s.status i hi hst
    refine ⟨?_, ?_, ?_, ?_, ?_⟩
    · intro j hj
      show Function.update s.status i (WStatus.out true) j = WStatus.idle
      rcases eq_or_ne j i with rfl | hne
      · rw [hj] at hsk
        exact absurd hsk (by decide)
      · rw [Function.update_noteq hne]
        exact hskipIdle j hj
    · show s.active - 1 = countW n (Function.update s.status i (WStatus.out true))
        (fun _ w => doingWeight w)
      omega
    · show countW n (Function.update s.status i (WStatus.out true))
        (fun _ w => runningWeight w) ≤ cfg.limit
      omega
    · show s.pending = countW n (Function.update s.status i (WStatus.out true))
        (fun j w => if skip j then 0 else unclaimedWeight w)
      omega
    · rintro ⟨j, hjn, hj⟩
      rcases eq_or_ne j i with rfl | hne
      · have hj' : Function.update s.status j (WStatus.out true) j = .out false := hj
        rw [Function.update_same] at hj'
        exact absurd hj' (by decide)
      · have hj' : Function.update s.status i (WStatus.out true) j = .out false := hj
        rw [Function.update_noteq hne] at hj'
        rcases hout ⟨j, hjn, hj'⟩ with hD | hI
        · left
          show cfg.reqS ≤ s.succ ∧ cfg.reqF ≤ s.fail + 1
          omega
        · right
          show s.succ + (s.active - 1) + s.pending < cfg.reqS ∨
            s.fail + 1 + (s.active - 1) + s.pending < cfg.reqF
          omega

theorem trace_inv {n : Nat} {skip : Nat → Bool} {cfg : KCfg} :
    ∀ {s : KState} {ls : List KLabel} {s' : KState},
      Trace n skip cfg s ls s' → KInv n skip cfg s → KInv n skip cfg s' := by
  intro s ls s' ht
  induction ht with
  | refl s => exact id
  | step hstep htr ih => exact fun hinv => ih (step_inv hstep hinv)

theorem init_inv (n : Nat) (skip : Nat → Bool) (cfg : KCfg) :
    KInv n skip cfg (initState n skip) := by
  refine ⟨fun i _ => rfl, ?_, ?_, ?_, ?_⟩
  · show 0 = countW n (fun _ => WStatus.idle) (fun _ w => doingWeight w)
    rw [countW]
    simp [doingWeight]
  · show countW n (fun _ => WStatus.idle) (fun _ w => runningWeight w) ≤ cfg.limit
    have h0 : countW n (fun _ => WStatus.idle) (fun _ w => runningWeight w) = 0 := by
      rw [countW]
      simp [runningWeight]
    omega
  · show (∑ i in Finset.range n, if skip i then 0 else 1)
      = countW n (fun _ => WStatus.idle)
          (fun i w => if skip i then 0 else unclaimedWeight w)
    rw [countW]
    refine Finset.sum_congr rfl (fun j _ => ?_)
    simp [unclaimedWeight]
  · rintro ⟨j, -, hj⟩
    have hj' : WStatus.idle = WStatus.out false := hj
    exact absurd hj' (by decide)

theorem step_claim_skip_false {n : Nat} {skip : Nat → Bool} {cfg : KCfg}
    {s s' : KState} {i : Nat} (hstep : Step n skip cfg s (.claim i) s')
    (hinv : KInv n skip cfg s) : skip i = false := by
  cases hstep with
  | claim i hi hst hnd hni hnw =>
    cases hcase : skip i with
    | false => rfl
    | true => rw [hinv.1 i hcase] at hst; exact absurd hst (by decide)

theorem claim_skip_false_aux {n : Nat} {skip : Nat → Bool} {cfg : KCfg} :
    ∀ {s : KState} {ls : List KLabel} {s' : KState},
      Trace n skip cfg s ls s' → KInv n skip cfg s →
      ∀ i : Nat, KLabel.claim i ∈ ls → skip i = false := by
  intro s ls s' ht
  induction ht with
  | refl s => exact fun _ i hmem => absurd hmem (List.not_mem_nil _)
  | step hstep htr ih =>
    intro hinv i hmem
    rcases List.mem_cons.mp hmem with heq | htail
    · subst heq
      exact step_claim_skip_false hstep hinv
    · exact ih (step_inv hstep hinv) i htail

/-- **C1.** Along every execution of the collector whose limiter capacity is
the LongTail-aware `collectLimit concurrency longTail pending₀` — the spec's
"up to `concurrency + long_tail` operations concurrently", clamped as in
`Collect` by the number of non-skipped items — the number of `do`
operations started and not yet completed (`active`) never exceeds
`concurrency + longTail`. -/
theorem collect_concurrency_bound (n : Nat) (skip : Nat → Bool)
    (reqS reqF concurrency longTail : Nat) (ls : List KLabel) (s : KState)
    (ht : Trace n skip
      { reqS := reqS, reqF := reqF
        limit := collectLimit concurrency longTail (initState n skip).pending }
      (initState n skip) ls s) :
    s.active ≤ concurrency + longTail := by
  obtain ⟨-, hact, hrun, -, -⟩ := trace_inv ht (init_inv n skip _)
  have hdr : countW n s.status (fun _ w => doingWeight w)
      ≤ countW n s.status (fun _ w => runningWeight w) := by
    rw [countW, countW]
    refine Finset.sum_le_sum (fun j _ => ?_)
    cases s.status j <;> simp [doingWeight, runningWeight]
  have hrun' : countW n s.status (fun _ w => runningWeight w)
      ≤ collectLimit concurrency longTail (initState n skip).pending := hrun
  have hmin : collectLimit concurrency longTail (initState n skip).pending
      ≤ concurrency + longTail := min_le_left _ _
  omega

/-- **C8.** In every execution of the collector from its initial state, a
`claim` transition for index `i` — the transition on which `run` hands item
`i` to `do` — occurs only if `skip i = false`: items marked skip are never
dispatched. -/
theorem collect_skip_never_dispatched (n : Nat) (skip : Nat → Bool)
    (cfg : KCfg) (ls : List KLabel) (s : KState)
    (ht : Trace n skip cfg (initState n skip) ls s)
    (i : Nat) (hmem : KLabel.claim i ∈ ls) : skip i = false :=
  claim_skip_false_aux ht (init_inv n skip cfg) i hmem

/-- **C9.** Whenever every non-skipped worker of the collector has returned
— the moment `limiter.Wait()` and hence `Collect` returns — either both
requirements are met (`KDone`) or meeting them has become impossible
(`KImp`): the collector never exits early while the successes and failures
so far plus the in-flight and not-yet-dispatched candidates could still
reach both thresholds. -/
theorem collect_no_early_exit (n : Nat) (skip : Nat → Bool) (cfg : KCfg)
    (ls : List KLabel) (s : KState)
    (ht : Trace n skip cfg (initState n skip) ls s)
    (hterm : Terminal n skip s) :
    KDone cfg s ∨ KImp cfg s := by
  obtain ⟨hskipIdle, hact, hrun, hpend, hout⟩ := trace_inv ht (init_inv n skip cfg)
  by_cases hof : ∃ i, i < n ∧ s.status i = .out false
  · exact hout hof
  · push_neg at hof
    have hall : ∀ i, i < n → skip i = false → s.status i = .out true := by
      intro i hi hsk
      obtain ⟨b, hb⟩ := hterm i hi hsk
      cases b with
      | true => exact hb
      | false => exact absurd hb (hof i hi)
    have hpend0 : s.pending = 0 := by
      rw [hpend, countW]
      refine Finset.sum_eq_zero (fun j hj => ?_)
      cases hcase : skip j with
      | true => simp [hcase]
      | false =>
        rw [hall j (Finset.mem_range.mp hj) hcase]
        simp [hcase, unclaimedWeight]
    have hact0 : s.active = 0 := by
      rw [hact, countW]
      refine Finset.sum_eq_zero (fun j hj => ?_)
      cases hcase : skip j with
      | true =>
        rw [hskipIdle j hcase]
        simp [doingWeight]
      | false =>
        rw [hall j (Finset.mem_range.mp hj) hcase]
        simp [doingWeight]
    by_cases hdone : KDone cfg s
    · exact Or.inl hdone
    · right
      have hd' : ¬ (cfg.reqS ≤ s.succ ∧ cfg.reqF ≤ s.fail) := hdone
      show s.succ + s.active + s.pending < cfg.reqS ∨
        s.fail + s.active + s.pending < cfg.reqF
      omega

theorem kwStep01 : Step 1 kwSkip kwCfg kwS0 (.start 0) kwS1 :=
  Step.start kwS0 0 (by decide) rfl rfl (by decide)

theorem kwStep12 : Step 1 kwSkip kwCfg kwS1 (.claim 0) kwS2 :=
  Step.claim kwS1 0 (by decide) (by decide) (by decide) (by decide) (by decide)

theorem kwStep23 : Step 1 kwSkip kwCfg kwS2 (.finishOk 0) kwS3 :=
  Step.finishOk kwS2 0 (by decide) (by decide)

theorem kwTrace2 : Trace 1 kwSkip kwCfg kwS0 [.start 0, .claim 0] kwS2 :=
  Trace.step kwStep01 (Trace.step kwStep12 (Trace.refl kwS2))

theorem kwTrace3 :
    Trace 1 kwSkip kwCfg kwS0 [.start 0, .claim 0, .finishOk 0] kwS3 :=
  Trace.step kwStep01 (Trace.step kwStep12 (Trace.step kwStep23 (Trace.refl kwS3)))

/-- Witness for C1: a concrete two-step run (worker 0 starts, then claims)
with `Concurrency = 3`, `LongTail = 2`; the in-flight count stays within
`3 + 2`. -/
theorem collect_concurrency_bound_witness : kwS2.active ≤ 3 + 2 :=
  collect_concurrency_bound 1 kwSkip 1 0 3 2 [.start 0, .claim 0] kwS2 kwTrace2

/-- Witness for C8: in the concrete run, item 0 is claimed and its skip flag
is indeed false. -/
theorem collect_skip_never_dispatched_witness :
    KLabel.claim 0 ∈ [KLabel.start 0, KLabel.claim 0] ∧ kwSkip 0 = false :=
  ⟨by decide,
    collect_skip_never_dispatched 1 kwSkip kwCfg [.start 0, .claim 0] kwS2
      kwTrace2 0 (by decide)⟩

/-- Witness for C9: after the concrete three-step run the single worker has
returned, and the done-or-impossible disjunction holds (here: done, since
`RequiredSuccesses = 1` success was recorded). -/
theorem collect_no_early_exit_witness :
    Terminal 1 kwSkip kwS3 ∧ (KDone kwCfg kwS3 ∨ KImp kwCfg kwS3) :=
  ⟨by decide,
    collect_no_early_exit 1 kwSkip kwCfg [.start 0, .claim 0, .finishOk 0] kwS3
      kwTrace3 (by decide)⟩

end StorjSpec.Kofn
